import Mathlib

/-!
Verification of the steptwo content-scraping core.

This file gives a shallow embedding of the core functions of
`src/content/robust-helpers.js` and `src/content/injector.js`:
URL normalization (`normalizeUrl`), image gathering (`gatherImages`,
`extractImageFromElement`, `extractBackgroundImages`), the robust
selector wait loop (`waitForSelector`), gallery detection
(`detectGalleryPage`), the candidate scorer (`smartElementDetection`),
the selector cache (`SelectorCache`) and the batch processor
(`batchProcess`).  Strings are modelled as lists of characters,
numbers as `Nat`/`Int`, the DOM as a finite tree of element records,
and the browser clock / image prober as explicit parameters.
-/

/-! ## Character-list strings and the pieces of JavaScript string
handling used by `normalizeUrl` (robust-helpers.js lines 290-350). -/

abbrev Str := List Char

def str (s : String) : Str := s.data

/-- Whitespace as trimmed by JavaScript `String.prototype.trim`
(restricted to the ASCII whitespace characters that can occur in the
modelled inputs). -/
def wsChar (c : Char) : Bool :=
  c = ' ' || c = '\t' || c = '\n' || c = '\r'

/-- Quote characters removed by the regex `/^['"]|['"]$/g` in
`normalizeUrl`. -/
def quoteChar (c : Char) : Bool :=
  c = '\'' || c = '\"'

/-- Drop trailing characters satisfying `p`. -/
def dropTrailing (p : Char → Bool) (l : Str) : Str :=
  (l.reverse.dropWhile p).reverse

/-- Model of JavaScript `url.trim()`. -/
def jsTrim (l : Str) : Str :=
  dropTrailing wsChar (l.dropWhile wsChar)

/-- Model of `cleanUrl.replace(/^['"]|['"]$/g, '')`: the anchored
regex removes at most one leading and one trailing quote. -/
def stripLeadQ : Str → Str
  | [] => []
  | c :: t => if quoteChar c then t else c :: t

def stripTrailQ (l : Str) : Str :=
  match l.reverse with
  | [] => []
  | c :: t => if quoteChar c then t.reverse else l

def stripQuotes (l : Str) : Str := stripTrailQ (stripLeadQ l)

/-- Boolean prefix test on character lists. -/
def isPre : Str → Str → Bool
  | [], _ => true
  | _ :: _, [] => false
  | a :: as, b :: bs => a = b && isPre as bs

/-- Boolean substring (infix) test, modelling `String.prototype.includes`. -/
def isSub (p : Str) : Str → Bool
  | [] => p.isEmpty
  | c :: t => isPre p (c :: t) || isSub p t

/-- Boolean suffix test, modelling `endsWith`. -/
def isSuf (p l : Str) : Bool := isPre p.reverse l.reverse

/-- Split at the first occurrence of `c`: returns the part before it
and, when found, the part after it. -/
def splitAtFirst (c : Char) : Str → Str × Option Str
  | [] => ([], none)
  | x :: xs =>
      if x = c then ([], some xs)
      else
        let r := splitAtFirst c xs
        (x :: r.1, r.2)

/-- Last character of a character list. -/
def lastc (l : Str) : Option Char := l.reverse.head?

/-! ### Basic lemmas about the string helpers. -/

theorem dropWhile_eq_self_of_head (p : Char → Bool) (l : Str)
    (h : ∀ c t, l = c :: t → p c = false) : l.dropWhile p = l := by
  cases l with
  | nil => simp
  | cons x xs => simp [List.dropWhile, h x xs rfl]

theorem dropTrailing_eq_self (p : Char → Bool) (l : Str)
    (h : ∀ c, lastc l = some c → p c = false) : dropTrailing p l = l := by
  unfold dropTrailing
  have : l.reverse.dropWhile p = l.reverse := by
    apply dropWhile_eq_self_of_head
    intro c t hct
    apply h
    unfold lastc
    rw [hct]
    rfl
  rw [this, List.reverse_reverse]

theorem jsTrim_eq_self (l : Str)
    (hh : ∀ c t, l = c :: t → wsChar c = false)
    (hl : ∀ c, lastc l = some c → wsChar c = false) : jsTrim l = l := by
  unfold jsTrim
  rw [dropWhile_eq_self_of_head wsChar l hh]
  exact dropTrailing_eq_self wsChar l hl

theorem stripLeadQ_eq_self (l : Str)
    (hh : ∀ c t, l = c :: t → quoteChar c = false) : stripLeadQ l = l := by
  cases l with
  | nil => rfl
  | cons x xs => simp [stripLeadQ, hh x xs rfl]

theorem stripTrailQ_eq_self (l : Str)
    (hl : ∀ c, lastc l = some c → quoteChar c = false) : stripTrailQ l = l := by
  unfold stripTrailQ
  cases hrev : l.reverse with
  | nil =>
      have : l = [] := List.reverse_eq_nil_iff.mp hrev
      simp [this]
  | cons c t =>
      have : quoteChar c = false := by
        apply hl
        unfold lastc
        rw [hrev]
        rfl
      simp [this]

theorem stripQuotes_eq_self (l : Str)
    (hh : ∀ c t, l = c :: t → quoteChar c = false)
    (hl : ∀ c, lastc l = some c → quoteChar c = false) : stripQuotes l = l := by
  unfold stripQuotes
  rw [stripLeadQ_eq_self l hh]
  exact stripTrailQ_eq_self l hl

theorem splitAtFirst_none (c : Char) :
    ∀ l : Str, (splitAtFirst c l).2 = none → (splitAtFirst c l).1 = l ∧ c ∉ l := by
  intro l
  induction l with
  | nil => intro _; simp [splitAtFirst]
  | cons x xs ih =>
      intro h
      by_cases hx : x = c
      · simp [splitAtFirst, hx] at h
      · simp only [splitAtFirst, if_neg hx] at h ⊢
        rcases ih h with ⟨h1, h2⟩
        refine ⟨by rw [h1], ?_⟩
        intro hc
        rcases List.mem_cons.mp hc with h3 | h3
        · exact hx h3.symm
        · exact h2 h3

theorem splitAtFirst_some (c : Char) :
    ∀ l b : Str, (splitAtFirst c l).2 = some b →
      l = (splitAtFirst c l).1 ++ c :: b ∧ c ∉ (splitAtFirst c l).1 := by
  intro l
  induction l with
  | nil => intro b h; simp [splitAtFirst] at h
  | cons x xs ih =>
      intro b h
      by_cases hx : x = c
      · subst hx
        simp [splitAtFirst] at h ⊢
        simpa using h
      · simp only [splitAtFirst, if_neg hx] at h ⊢
        rcases ih b h with ⟨h1, h2⟩
        constructor
        · simpa using congrArg (List.cons x) h1
        · intro hc
          rcases List.mem_cons.mp hc with h3 | h3
          · exact hx h3.symm
          · exact h2 h3

theorem splitAtFirst_not_mem (c : Char) :
    ∀ l : Str, c ∉ l → splitAtFirst c l = (l, none) := by
  intro l
  induction l with
  | nil => intro _; rfl
  | cons x xs ih =>
      intro h
      have hx : ¬ x = c := fun he => h (by rw [he]; exact List.mem_cons_self _ _)
      have hxs : c ∉ xs := fun hm => h (List.mem_cons_of_mem _ hm)
      simp [splitAtFirst, hx, ih hxs]

theorem splitAtFirst_append (c : Char) :
    ∀ a b : Str, c ∉ a → splitAtFirst c (a ++ c :: b) = (a, some b) := by
  intro a
  induction a with
  | nil => intro b _; simp [splitAtFirst]
  | cons x xs ih =>
      intro b h
      have hx : ¬ x = c := fun he => h (by rw [he]; exact List.mem_cons_self _ _)
      have hxs : c ∉ xs := fun hm => h (List.mem_cons_of_mem _ hm)
      simp [splitAtFirst, hx, ih b hxs]

theorem isPre_append_self : ∀ p t : Str, isPre p (p ++ t) = true := by
  intro p
  induction p with
  | nil => intro t; rfl
  | cons x xs ih => intro t; simp [isPre, ih t]

theorem lastc_append_cons (a : Str) (c : Char) (b : Str) (hb : b ≠ []) :
    lastc (a ++ c :: b) = lastc b := by
  unfold lastc
  rw [List.reverse_append]
  cases hr : b.reverse with
  | nil => exact absurd (by simpa using hr) hb
  | cons y ys => simp [hr]

theorem lastc_append_singleton (a : Str) (c : Char) :
    lastc (a ++ [c]) = some c := by
  unfold lastc
  rw [List.reverse_append]
  rfl

/-! ## Model of the browser URL machinery used by `normalizeUrl`.

`normalizeUrl` (robust-helpers.js lines 290-350) delegates absolute
parsing and relative resolution to the host `URL` constructor, an
external capability of the page environment.  `parseCore` models the
fragment of WHATWG URL parsing exercised here: `http`/`https` URLs
with a lower-case host, split into host, path, query and fragment,
with the input trimmed and an empty path normalized to `/`.  Inputs
outside this fragment (other schemes, upper-case authorities,
percent-encoding normalization, dot-segment removal, default-port
elision) are treated as unparseable, which only shrinks the set of
inputs the theorems below speak about. -/

structure ModelURL where
  scheme : Str
  host : Str
  path : Str
  query : Option Str
  frag : Option Str
deriving DecidableEq

/-- Characters accepted in the modelled authority (host and optional
port): lower-case letters, digits, dots, hyphens and the port colon. -/
def validHostChar (c : Char) : Bool :=
  (c.isLower && c.isAlpha) || c.isDigit || c = '.' || c = '-' || c = ':'

/-- Recognize the `http://` / `https://` scheme prefix. -/
def schemeSplit (s : Str) : Option (Str × Str) :=
  if isPre (str "http://") s then some (str "http", s.drop 7)
  else if isPre (str "https://") s then some (str "https", s.drop 8)
  else none

/-- Assemble a parsed URL once the authority has been isolated,
validating the host.  `pOpt` is the remainder after the first `/` of
the authority section (absent when the path is empty). -/
def buildURL (schm host : Str) (pOpt : Option Str) (q f : Option Str) :
    Option ModelURL :=
  if host.isEmpty then none
  else if host.all validHostChar then
    some ⟨schm, host, (match pOpt with | some p => '/' :: p | none => ['/']), q, f⟩
  else none

/-- Split the part after the scheme into host, path, query and
fragment: the fragment starts at the first `#`, the query at the first
`?` before it, the path at the first `/` before that. -/
def parseAfterScheme (schm rest : Str) : Option ModelURL :=
  buildURL schm
    (splitAtFirst '/' (splitAtFirst '?' (splitAtFirst '#' rest).1).1).1
    (splitAtFirst '/' (splitAtFirst '?' (splitAtFirst '#' rest).1).1).2
    (splitAtFirst '?' (splitAtFirst '#' rest).1).2
    (splitAtFirst '#' rest).2

/-- Model of `new URL(s)` on the fragment described above. -/
def parseCore (s0 : Str) : Option ModelURL :=
  match schemeSplit (jsTrim s0) with
  | none => none
  | some (schm, rest) => parseAfterScheme schm rest

/-- Serialized query part (`?`-led when present). -/
def qPart (q : Option Str) : Str :=
  match q with | some x => '?' :: x | none => []

/-- Serialized fragment part (`#`-led when present). -/
def fPart (f : Option Str) : Str :=
  match f with | some x => '#' :: x | none => []

/-- Model of the `href` serializer. -/
def serializeURL (u : ModelURL) : Str :=
  u.scheme ++ str "://" ++ u.host ++ u.path ++ qPart u.query ++ fPart u.frag

def originStr (b : ModelURL) : Str := b.scheme ++ str "://" ++ b.host

def querySuffix (b : ModelURL) : Str := qPart b.query

/-- Base directory of a path: everything up to and including the last
slash (`/` when the path has none). -/
def dirOf (p : Str) : Str :=
  let d := (p.reverse.dropWhile (fun c => !(c = '/'))).reverse
  if d.isEmpty then ['/'] else d

/-- Model of `new URL(input, base)`: WHATWG trims the input, ignores
the base when the input is absolute, and otherwise resolves
protocol-relative, path-absolute, query-only, fragment-only and
path-relative references against the base.  Dot segments are kept
as-is and the empty input is treated as unresolvable (a scope
restriction of the model). -/
def resolveTrimmed (base : ModelURL) (t : Str) : Option ModelURL :=
  match parseCore t with
  | some m => some m
  | none =>
      match t with
      | [] => none
      | c :: _ =>
          if isPre (str "//") t then parseCore (base.scheme ++ ':' :: t)
          else if c = '/' then parseCore (originStr base ++ t)
          else if c = '?' then parseCore (originStr base ++ base.path ++ t)
          else if c = '#' then
            parseCore (originStr base ++ base.path ++ querySuffix base ++ t)
          else parseCore (originStr base ++ dirOf base.path ++ t)

def resolveRelative (base : ModelURL) (t0 : Str) : Option ModelURL :=
  resolveTrimmed base (jsTrim t0)

/-- The `cleanUrl` of `normalizeUrl`: trim, then strip one leading and
one trailing quote. -/
def cleanOf (url : Str) : Str := stripQuotes (jsTrim url)

/-- Protocol-relative expansion: `//host/...` gets
`window.location.protocol` (the page scheme plus `:`) prepended. -/
def withProto (loc : ModelURL) (c : Str) : Str :=
  if isPre (str "//") c then loc.scheme ++ ':' :: c else c

/-- The `cleanUrl` after the `^https?:` test: absolute inputs pass
through, anything else is resolved against `window.location.href`. -/
def resolveStr (loc : ModelURL) (c2 : Str) : Option Str :=
  if isPre (str "http:") c2 || isPre (str "https:") c2 then some c2
  else (resolveRelative loc c2).map serializeURL

/-- Shallow embedding of `RobustHelpers.normalizeUrl(url)` with the
default options (no `forceHttps`, no query/fragment/trailing-slash
rewriting), which is how every caller in the gathering pipeline
invokes it.  `loc` models `window.location`. -/
def normalizeUrl (loc : ModelURL) (url : Str) : Option Str :=
  if url.isEmpty then none
  else if isPre (str "data:") (cleanOf url) then some (cleanOf url)
  else
    match resolveStr loc (withProto loc (cleanOf url)) with
    | none => none
    | some s => (parseCore s).map serializeURL

/-! ### Structural facts about `parseCore` outputs and a parse/serialize
round trip, used to settle the idempotence claim about `normalizeUrl`. -/

theorem isPre_cons_ex (a : Char) (as l : Str) (h : isPre (a :: as) l = true) :
    ∃ t, l = a :: t := by
  cases l with
  | nil => simp [isPre] at h
  | cons b bs =>
      have : a = b := by
        by_contra hne
        simp [isPre, hne] at h
      exact ⟨bs, by rw [this]⟩

theorem not_mem_of_all_validHostChar (l : Str) (hall : l.all validHostChar = true)
    (c : Char) (hc : validHostChar c = false) : c ∉ l := by
  intro hmem
  have := List.all_eq_true.mp hall c hmem
  rw [hc] at this
  exact Bool.false_ne_true this

/-- Every successful `parseCore` result has an `http`/`https` scheme, a
valid non-empty host, a slash-led path free of `?` and `#`, and a query
free of `#`. -/
theorem parseCore_inv (s0 : Str) (u : ModelURL) (h : parseCore s0 = some u) :
    (u.scheme = str "http" ∨ u.scheme = str "https") ∧
    u.host ≠ [] ∧ u.host.all validHostChar = true ∧
    (∃ pt, u.path = '/' :: pt ∧ '#' ∉ pt ∧ '?' ∉ pt) ∧
    (∀ q, u.query = some q → '#' ∉ q) := by
  unfold parseCore at h
  cases hss : schemeSplit (jsTrim s0) with
  | none => rw [hss] at h; exact absurd h (by simp)
  | some pr =>
      obtain ⟨schm, rest⟩ := pr
      rw [hss] at h
      simp only at h
      unfold parseAfterScheme buildURL at h
      by_cases he : (splitAtFirst '/' (splitAtFirst '?' (splitAtFirst '#' rest).1).1).1.isEmpty
      · rw [if_pos he] at h; exact absurd h (by simp)
      · rw [if_neg he] at h
        by_cases hv : (splitAtFirst '/' (splitAtFirst '?' (splitAtFirst '#' rest).1).1).1.all validHostChar
        · rw [if_pos hv] at h
          have hu := Option.some.inj h
          have hscheme : schm = str "http" ∨ schm = str "https" := by
            unfold schemeSplit at hss
            by_cases h1 : isPre (str "http://") (jsTrim s0)
            · left; rw [if_pos h1] at hss; exact (Prod.mk.injEq _ _ _ _ ▸ Option.some.inj hss).1.symm
            · rw [if_neg h1] at hss
              by_cases h2 : isPre (str "https://") (jsTrim s0)
              · right; rw [if_pos h2] at hss; exact (Prod.mk.injEq _ _ _ _ ▸ Option.some.inj hss).1.symm
              · rw [if_neg h2] at hss; exact absurd hss (by simp)
          -- abbreviations for the three splits
          have hp1 : '#' ∉ (splitAtFirst '#' rest).1 := by
            cases hf : (splitAtFirst '#' rest).2 with
            | none =>
                have hn := splitAtFirst_none '#' rest hf
                rw [hn.1]; exact hn.2
            | some f => exact (splitAtFirst_some '#' rest f hf).2
          have hp2sub : ∀ c : Char, c ∉ (splitAtFirst '#' rest).1 →
              c ≠ '?' → c ∉ (splitAtFirst '?' (splitAtFirst '#' rest).1).1 := by
            intro c hc hcq
            cases hq : (splitAtFirst '?' (splitAtFirst '#' rest).1).2 with
            | none =>
                rw [(splitAtFirst_none '?' _ hq).1]
                exact hc
            | some q =>
                intro hmem
                exact hc ((splitAtFirst_some '?' _ q hq).1 ▸ List.mem_append_left _ hmem)
          have hq2 : '?' ∉ (splitAtFirst '?' (splitAtFirst '#' rest).1).1 := by
            cases hq : (splitAtFirst '?' (splitAtFirst '#' rest).1).2 with
            | none =>
                have hn := splitAtFirst_none '?' _ hq
                rw [hn.1]; exact hn.2
            | some q => exact (splitAtFirst_some '?' _ q hq).2
          have hh2 : '#' ∉ (splitAtFirst '?' (splitAtFirst '#' rest).1).1 :=
            hp2sub '#' hp1 (by decide)
          refine ⟨by rw [← hu]; exact hscheme, ?_, ?_, ?_, ?_⟩
          · rw [← hu]
            simpa [List.isEmpty_iff] using he
          · rw [← hu]; exact hv
          · rw [← hu]
            cases hp : (splitAtFirst '/' (splitAtFirst '?' (splitAtFirst '#' rest).1).1).2 with
            | none =>
                refine ⟨[], by simp [hp], by simp, by simp⟩
            | some pt =>
                refine ⟨pt, by simp [hp], ?_, ?_⟩
                · intro hmem
                  exact hh2 ((splitAtFirst_some '/' _ pt hp).1 ▸
                    List.mem_append_right _ (List.mem_cons_of_mem _ hmem))
                · intro hmem
                  exact hq2 ((splitAtFirst_some '/' _ pt hp).1 ▸
                    List.mem_append_right _ (List.mem_cons_of_mem _ hmem))
          · rw [← hu]
            intro q hq hmem
            simp only at hq
            cases hqq : (splitAtFirst '?' (splitAtFirst '#' rest).1).2 with
            | none => rw [hqq] at hq; exact absurd hq (by simp)
            | some q' =>
                rw [hqq] at hq
                have : q' = q := Option.some.inj hq
                subst this
                exact hp1 ((splitAtFirst_some '?' _ q' hqq).1 ▸
                  List.mem_append_right _ (List.mem_cons_of_mem _ hmem))
        · rw [if_neg hv] at h; exact absurd h (by simp)

/-- Re-parsing a well-formed authority-path-query-fragment section
recovers its components. -/
theorem parseAfterScheme_recompose (schm host pt : Str) (q f : Option Str)
    (hne : host ≠ []) (hall : host.all validHostChar = true)
    (hpt1 : '#' ∉ pt) (hpt2 : '?' ∉ pt)
    (hq : ∀ x, q = some x → '#' ∉ x) :
    parseAfterScheme schm (host ++ '/' :: pt ++ qPart q ++ fPart f) =
      some ⟨schm, host, '/' :: pt, q, f⟩ := by
  have hhostHash : '#' ∉ host := not_mem_of_all_validHostChar host hall '#' (by decide)
  have hhostQ : '?' ∉ host := not_mem_of_all_validHostChar host hall '?' (by decide)
  have hhostSlash : '/' ∉ host := not_mem_of_all_validHostChar host hall '/' (by decide)
  have hAq : '#' ∉ host ++ '/' :: pt ++ qPart q := by
    intro hmem
    rcases List.mem_append.mp hmem with hm | hm
    · rcases List.mem_append.mp hm with hm2 | hm2
      · exact hhostHash hm2
      · rcases List.mem_cons.mp hm2 with hm3 | hm3
        · exact absurd hm3 (by decide)
        · exact hpt1 hm3
    · cases hcq : q with
      | none => rw [hcq] at hm; exact absurd hm (by simp [qPart])
      | some x =>
          rw [hcq] at hm
          exact hq x hcq (by simpa [qPart] using hm)
  have hBq : '?' ∉ host ++ '/' :: pt := by
    intro hmem
    rcases List.mem_append.mp hmem with hm | hm
    · exact hhostQ hm
    · rcases List.mem_cons.mp hm with hm2 | hm2
      · exact absurd hm2 (by decide)
      · exact hpt2 hm2
  have hsplitHash : splitAtFirst '#' (host ++ '/' :: pt ++ qPart q ++ fPart f) =
      (host ++ '/' :: pt ++ qPart q, f) := by
    cases f with
    | none =>
        have : host ++ '/' :: pt ++ qPart q ++ fPart none =
            host ++ '/' :: pt ++ qPart q := by simp [fPart]
        rw [this]
        exact splitAtFirst_not_mem '#' _ hAq
    | some x =>
        have : host ++ '/' :: pt ++ qPart q ++ fPart (some x) =
            (host ++ '/' :: pt ++ qPart q) ++ '#' :: x := by
          simp [fPart, List.append_assoc]
        rw [this]
        exact splitAtFirst_append '#' _ x hAq
  have hsplitQ : splitAtFirst '?' (host ++ '/' :: pt ++ qPart q) =
      (host ++ '/' :: pt, q) := by
    cases q with
    | none =>
        have : host ++ '/' :: pt ++ qPart none = host ++ '/' :: pt := by simp [qPart]
        rw [this]
        exact splitAtFirst_not_mem '?' _ hBq
    | some x =>
        have : host ++ '/' :: pt ++ qPart (some x) =
            (host ++ '/' :: pt) ++ '?' :: x := by simp [qPart, List.append_assoc]
        rw [this]
        exact splitAtFirst_append '?' _ x hBq
  have hsplitSlash : splitAtFirst '/' (host ++ '/' :: pt) = (host, some pt) :=
    splitAtFirst_append '/' host pt hhostSlash
  unfold parseAfterScheme
  rw [hsplitHash]
  simp only
  rw [hsplitQ]
  simp only
  rw [hsplitSlash]
  simp only
  unfold buildURL
  rw [if_neg (by simpa [List.isEmpty_iff] using hne), if_pos hall]

/-- Parse/serialize round trip: re-parsing the serialization of a
parsed URL gives the same URL, provided the serialization is
trim-stable. -/
theorem parseCore_serialize (s0 : Str) (u : ModelURL) (h : parseCore s0 = some u)
    (htrim : jsTrim (serializeURL u) = serializeURL u) :
    parseCore (serializeURL u) = some u := by
  obtain ⟨hischeme, hne, hall, ⟨pt, hpt, hpt1, hpt2⟩, hq⟩ := parseCore_inv s0 u h
  have hser : ∀ pre : Str,
      (u.scheme = pre) →
      serializeURL u = pre ++ str "://" ++ (u.host ++ ('/' :: pt ++ (qPart u.query ++ fPart u.frag))) := by
    intro pre hpre
    unfold serializeURL
    rw [hpre, hpt]
    simp [List.append_assoc]
  unfold parseCore
  rw [htrim]
  cases hischeme with
  | inl hsc =>
      have hform : serializeURL u =
          str "http://" ++ (u.host ++ ('/' :: pt ++ (qPart u.query ++ fPart u.frag))) := by
        rw [hser (str "http") hsc]
        rfl
      rw [hform]
      have hss : schemeSplit (str "http://" ++ (u.host ++ ('/' :: pt ++ (qPart u.query ++ fPart u.frag)))) =
          some (str "http", u.host ++ ('/' :: pt ++ (qPart u.query ++ fPart u.frag))) := by
        unfold schemeSplit
        rw [if_pos (isPre_append_self (str "http://") _)]
        rfl
      rw [hss]
      simp only
      have hre : u.host ++ ('/' :: pt ++ (qPart u.query ++ fPart u.frag)) =
          u.host ++ '/' :: pt ++ qPart u.query ++ fPart u.frag := by
        simp [List.append_assoc]
      rw [hre, parseAfterScheme_recompose (str "http") u.host pt u.query u.frag hne hall hpt1 hpt2
        (fun x hx => hq x hx)]
      rw [← hsc, ← hpt]
  | inr hsc =>
      have hform : serializeURL u =
          str "https://" ++ (u.host ++ ('/' :: pt ++ (qPart u.query ++ fPart u.frag))) := by
        rw [hser (str "https") hsc]
        rfl
      rw [hform]
      have hss : schemeSplit (str "https://" ++ (u.host ++ ('/' :: pt ++ (qPart u.query ++ fPart u.frag)))) =
          some (str "https", u.host ++ ('/' :: pt ++ (qPart u.query ++ fPart u.frag))) := by
        unfold schemeSplit
        have hfalse : isPre (str "http://")
            (str "https://" ++ (u.host ++ ('/' :: pt ++ (qPart u.query ++ fPart u.frag)))) = false := rfl
        rw [if_neg (by rw [hfalse]; exact Bool.false_ne_true),
          if_pos (isPre_append_self (str "https://") _)]
        rfl
      rw [hss]
      simp only
      have hre : u.host ++ ('/' :: pt ++ (qPart u.query ++ fPart u.frag)) =
          u.host ++ '/' :: pt ++ qPart u.query ++ fPart u.frag := by
        simp [List.append_assoc]
      rw [hre, parseAfterScheme_recompose (str "https") u.host pt u.query u.frag hne hall hpt1 hpt2
        (fun x hx => hq x hx)]
      rw [← hsc, ← hpt]

/-! ### Idempotence of `normalizeUrl` (claim C3). -/

/-- A canonical result with a benign final character: it ends neither
in a quote (which the next `stripQuotes` pass would remove) nor in
whitespace (which the next `trim` would remove). -/
def goodEnd (v : Str) : Bool :=
  match lastc v with
  | some c => !(quoteChar c) && !(wsChar c)
  | none => true

theorem goodEnd_ws (v : Str) (h : goodEnd v = true) :
    ∀ c, lastc v = some c → wsChar c = false := by
  intro c hc
  unfold goodEnd at h
  rw [hc] at h
  simp only at h
  cases hw : wsChar c
  · rfl
  · rw [hw] at h; simp at h

theorem goodEnd_quote (v : Str) (h : goodEnd v = true) :
    ∀ c, lastc v = some c → quoteChar c = false := by
  intro c hc
  unfold goodEnd at h
  rw [hc] at h
  simp only at h
  cases hw : quoteChar c
  · rfl
  · rw [hw] at h; simp at h

/-- `cleanOf` fixes any string whose first character is neither
whitespace nor a quote and whose final character is benign. -/
theorem cleanOf_fix (v : Str) (c : Char) (t : Str) (ht : v = c :: t)
    (hcw : wsChar c = false) (hcq : quoteChar c = false)
    (hge : goodEnd v = true) : cleanOf v = v := by
  unfold cleanOf
  have htrim : jsTrim v = v := by
    apply jsTrim_eq_self
    · intro c' t' h'
      rw [ht] at h'
      cases h'
      exact hcw
    · exact goodEnd_ws v hge
  rw [htrim]
  apply stripQuotes_eq_self
  · intro c' t' h'
    rw [ht] at h'
    cases h'
    exact hcq
  · exact goodEnd_quote v hge

/-- Every `some` result of `normalizeUrl` is either a passed-through
`data:` URI or the serialization of a parsed URL. -/
theorem normalizeUrl_shape (loc : ModelURL) (u v : Str)
    (h : normalizeUrl loc u = some v) :
    isPre (str "data:") v = true ∨
      ∃ s x, parseCore s = some x ∧ v = serializeURL x := by
  unfold normalizeUrl at h
  by_cases he : u.isEmpty
  · rw [if_pos he] at h; exact absurd h (by simp)
  · rw [if_neg he] at h
    by_cases hd : isPre (str "data:") (cleanOf u)
    · rw [if_pos hd] at h
      left
      rw [← Option.some.inj h]
      exact hd
    · rw [if_neg hd] at h
      cases hr : resolveStr loc (withProto loc (cleanOf u)) with
      | none => rw [hr] at h; exact absurd h (by simp)
      | some s =>
          rw [hr] at h
          simp only at h
          right
          cases hp : parseCore s with
          | none => rw [hp] at h; exact absurd h (by simp)
          | some x =>
              rw [hp] at h
              simp only [Option.map] at h
              exact ⟨s, x, hp, (Option.some.inj h).symm⟩

theorem serialize_head (x : ModelURL)
    (hsc : x.scheme = str "http" ∨ x.scheme = str "https") :
    ∃ t, serializeURL x = 'h' :: t := by
  cases hsc with
  | inl h => unfold serializeURL; rw [h]; exact ⟨_, rfl⟩
  | inr h => unfold serializeURL; rw [h]; exact ⟨_, rfl⟩

theorem serialize_form_http (x : ModelURL) (hsc : x.scheme = str "http") :
    serializeURL x = str "http://" ++ (x.host ++ x.path ++ qPart x.query ++ fPart x.frag) := by
  unfold serializeURL
  rw [hsc]
  simp only [List.append_assoc]
  rfl

theorem serialize_form_https (x : ModelURL) (hsc : x.scheme = str "https") :
    serializeURL x = str "https://" ++ (x.host ++ x.path ++ qPart x.query ++ fPart x.frag) := by
  unfold serializeURL
  rw [hsc]
  simp only [List.append_assoc]
  rfl

/-- C3 (amended claim): `normalizeUrl` with fixed (default) options is
idempotent on every valid input whose canonical result does not end in
a quote or whitespace character.  (The unamended claim fails because
the quote-stripping step re-fires on canonical URLs that end in `'` or
`"`; see the counterexample below.) -/
theorem normalizeUrl_idempotent_of_goodEnd (loc : ModelURL) (u v : Str)
    (h : normalizeUrl loc u = some v) (hge : goodEnd v = true) :
    normalizeUrl loc v = some v := by
  rcases normalizeUrl_shape loc u v h with hd | ⟨s, x, hx, hv⟩
  · obtain ⟨t, ht⟩ := isPre_cons_ex 'd' (str "ata:") v hd
    have hclean : cleanOf v = v := cleanOf_fix v 'd' t ht (by decide) (by decide) hge
    have hne : v.isEmpty = false := by rw [ht]; rfl
    unfold normalizeUrl
    rw [if_neg (show ¬ (v.isEmpty = true) by rw [hne]; exact Bool.false_ne_true)]
    rw [hclean, if_pos hd]
  · subst hv
    obtain ⟨hischeme, _, _, _, _⟩ := parseCore_inv s x hx
    obtain ⟨t, ht⟩ := serialize_head x hischeme
    have hclean : cleanOf (serializeURL x) = serializeURL x :=
      cleanOf_fix _ 'h' t ht (by decide) (by decide) hge
    have htrim : jsTrim (serializeURL x) = serializeURL x := by
      apply jsTrim_eq_self
      · intro c' t' h'
        rw [ht] at h'
        cases h'
        decide
      · exact goodEnd_ws _ hge
    have hrt := parseCore_serialize s x hx htrim
    have hne : (serializeURL x).isEmpty = false := by rw [ht]; rfl
    have hdf : isPre (str "data:") (serializeURL x) = false := by rw [ht]; rfl
    have hpf : isPre (str "//") (serializeURL x) = false := by rw [ht]; rfl
    have hwp : withProto loc (serializeURL x) = serializeURL x := by
      unfold withProto
      rw [if_neg (by rw [hpf]; exact Bool.false_ne_true)]
    have hcond : (isPre (str "http:") (serializeURL x) ||
        isPre (str "https:") (serializeURL x)) = true := by
      cases hischeme with
      | inl hsc =>
          have hform := serialize_form_http x hsc
          have hone : isPre (str "http:") (serializeURL x) = true := by
            rw [hform]
            have hassoc : str "http://" ++ (x.host ++ x.path ++ qPart x.query ++ fPart x.frag) =
                str "http:" ++ (str "//" ++ (x.host ++ x.path ++ qPart x.query ++ fPart x.frag)) :=
              List.append_assoc (str "http:") (str "//") _
            rw [hassoc]
            exact isPre_append_self (str "http:") _
          rw [hone]
          rfl
      | inr hsc =>
          have hform := serialize_form_https x hsc
          have hone : isPre (str "https:") (serializeURL x) = true := by
            rw [hform]
            have hassoc : str "https://" ++ (x.host ++ x.path ++ qPart x.query ++ fPart x.frag) =
                str "https:" ++ (str "//" ++ (x.host ++ x.path ++ qPart x.query ++ fPart x.frag)) :=
              List.append_assoc (str "https:") (str "//") _
            rw [hassoc]
            exact isPre_append_self (str "https:") _
          rw [hone]
          simp
    have hres : resolveStr loc (serializeURL x) = some (serializeURL x) := by
      unfold resolveStr
      rw [if_pos hcond]
    unfold normalizeUrl
    rw [if_neg (show ¬ ((serializeURL x).isEmpty = true) by
      rw [hne]; exact Bool.false_ne_true)]
    rw [hclean]
    rw [if_neg (by rw [hdf]; exact Bool.false_ne_true)]
    rw [hwp, hres]
    simp only
    rw [hrt]
    rfl

/-- The page location used by the concrete examples below. -/
def exLoc : ModelURL := ⟨str "https", str "example.com", str "/", none, none⟩

/-- A valid absolute URL input ending in two apostrophes. -/
def exBad : Str := str "https://example.com/a" ++ ['\'', '\'']

/-- Its canonical form still ends in one apostrophe. -/
def exBadOut : Str := str "https://example.com/a" ++ ['\'']

/-- C3 (counterexample): `normalizeUrl` is not idempotent as claimed.
The absolute URL `https://example.com/a''` is valid (canonicalization
succeeds), but canonicalizing its canonical form
`https://example.com/a'` strips the apostrophe again and yields a
different URL. -/
theorem normalizeUrl_not_idempotent :
    normalizeUrl exLoc exBad = some exBadOut ∧
    normalizeUrl exLoc exBadOut ≠ some exBadOut := by
  constructor
  · decide
  · decide

/-- C3 (witness): the amended idempotence theorem applied at a
concrete quoted input whose canonical form is benign. -/
theorem normalizeUrl_idempotent_witness :
    normalizeUrl exLoc (str "https://example.com/pics/a.png") =
      some (str "https://example.com/pics/a.png") :=
  normalizeUrl_idempotent_of_goodEnd exLoc
    (['\''] ++ str "https://example.com/pics/a.png")
    (str "https://example.com/pics/a.png") (by decide) (by decide)

/-! ## The content tree.

The DOM is an external collaborator queried through selectors, computed
style, bounding geometry and attributes.  `ElemData` carries exactly the
per-element observations the embedded functions read; `Elem` is the
finite element tree. -/

structure ElemData where
  tag : Str
  idAttr : Str
  className : Str
  attrs : List (Str × Str)
  ownText : Str
  bgImage : Str
  rectW : Nat
  rectH : Nat
  visHidden : Bool
  opacityZero : Bool
  displayNone : Bool
  offsetParentNone : Bool
  disabled : Bool
  pointerEventsNone : Bool
  ariaDisabled : Bool
deriving DecidableEq

mutual
inductive Elem where
  | node (d : ElemData) (children : ElemList)
inductive ElemList where
  | nil
  | cons (e : Elem) (es : ElemList)
end

def Elem.data : Elem → ElemData
  | .node d _ => d

def Elem.children : Elem → ElemList
  | .node _ cs => cs

/-- Build an element-tree list from an ordinary list. -/
def elemsOf : List Elem → ElemList
  | [] => .nil
  | e :: es => .cons e (elemsOf es)

/-- Attribute lookup (`getAttribute`); `class` and `id` are reflected
from their dedicated fields, absent when empty. -/
def attrGet (d : ElemData) (n : Str) : Option Str :=
  if n = str "class" then (if d.className.isEmpty then none else some d.className)
  else if n = str "id" then (if d.idAttr.isEmpty then none else some d.idAttr)
  else (d.attrs.find? (fun p => decide (p.1 = n))).map (fun p => p.2)

/-- JavaScript string truthiness: `undefined`/`null` and the empty
string are falsy. -/
def jsStr (o : Option Str) : Option Str :=
  match o with
  | some s => if s.isEmpty then none else some s
  | none => none

/-- `a || b || ...` over string-valued attribute reads. -/
def firstTruthy : List (Option Str) → Option Str
  | [] => none
  | o :: rest =>
      match jsStr o with
      | some s => some s
      | none => firstTruthy rest

/-! ### A small CSS selector engine for the selectors the source uses:
type selectors, `.token` class selectors, `[attr]`, `[attr="v"]`,
`[attr*="v"]` and a single descendant combinator. -/

inductive AttrCond where
  | present (n : Str)
  | eqv (n v : Str)
  | containsv (n v : Str)
deriving DecidableEq

structure SimpleSel where
  tagIs : Option Str
  clsTokens : List Str
  conds : List AttrCond
deriving DecidableEq

inductive Sel where
  | simple (s : SimpleSel)
  | descendant (anc tgt : SimpleSel)
deriving DecidableEq

/-- Whitespace-separated tokens of a `class` attribute value. -/
def wsTokensAux : Nat → Str → List Str
  | 0, _ => []
  | _, [] => []
  | f + 1, c :: t =>
      if wsChar c then wsTokensAux f t
      else (c :: t.takeWhile (fun x => !(wsChar x))) ::
        wsTokensAux f (t.dropWhile (fun x => !(wsChar x)))

def wsTokens (s : Str) : List Str := wsTokensAux s.length s

def matchCond (d : ElemData) : AttrCond → Bool
  | .present n => (attrGet d n).isSome
  | .eqv n v => match attrGet d n with | some w => decide (w = v) | none => false
  | .containsv n v => match attrGet d n with | some w => isSub v w | none => false

def matchesSimple (d : ElemData) (s : SimpleSel) : Bool :=
  (match s.tagIs with | some t => decide (d.tag = t) | none => true) &&
  s.clsTokens.all (fun tok => decide (tok ∈ wsTokens d.className)) &&
  s.conds.all (matchCond d)

def matchesSel (anc : List ElemData) (d : ElemData) : Sel → Bool
  | .simple s => matchesSimple d s
  | .descendant a t => matchesSimple d t && anc.any (fun ad => matchesSimple ad a)

/-! Document-order (pre-order) traversal paired with each element's
ancestor stack. -/
mutual
def elemCollect (anc : List ElemData) : Elem → List (List ElemData × Elem)
  | .node d cs => (anc, .node d cs) :: forestCollect (d :: anc) cs
def forestCollect (anc : List ElemData) : ElemList → List (List ElemData × Elem)
  | .nil => []
  | .cons e es => elemCollect anc e ++ forestCollect anc es
end

/-- `document.querySelectorAll(sel)` in document order. -/
def queryAll (sel : Sel) (body : ElemList) : List Elem :=
  ((forestCollect [] body).filter (fun p => matchesSel p.1 p.2.data sel)).map
    (fun p => p.2)

/-- `document.querySelectorAll("a, b, c")`: each element appears once,
in document order, if it matches any selector of the group. -/
def queryAllAny (sels : List Sel) (body : ElemList) : List Elem :=
  ((forestCollect [] body).filter
      (fun p => sels.any (fun s => matchesSel p.1 p.2.data s))).map (fun p => p.2)

def existsMatch (sels : List Sel) (body : ElemList) : Bool :=
  !(queryAllAny sels body).isEmpty

/-- `RobustHelpers.isElementVisible` (robust-helpers.js lines 420-432):
non-zero rendered box, not hidden by visibility/opacity/display, with
an offset parent. -/
def isElementVisible (d : ElemData) : Bool :=
  decide (0 < d.rectW) && decide (0 < d.rectH) && !d.visHidden &&
    !d.opacityZero && !d.displayNone && !d.offsetParentNone

/-- `RobustHelpers.isElementEnabled` (robust-helpers.js lines 439-446). -/
def isElementEnabled (d : ElemData) : Bool :=
  !d.disabled && !d.pointerEventsNone && !d.ariaDisabled

/-- The page as seen through `window.location`, `document.title` and
`document.body`. -/
structure Page where
  loc : ModelURL
  title : Str
  body : ElemList

mutual
def textContentE : Elem → Str
  | .node d cs => d.ownText ++ textContentF cs
def textContentF : ElemList → Str
  | .nil => []
  | .cons e es => textContentE e ++ textContentF es
end

def bodyText (p : Page) : Str := textContentF p.body

/-! ## Robust Wait/Retry Engine (`waitForSelector`,
robust-helpers.js lines 22-100).

The query capability is abstract: `query s` models
`context.querySelectorAll(s)` (all matches, in document order) for the
static content tree of one invocation; a malformed selector string is
a `query` that returns an error, which the attempt catches per
selector.  Time is modelled by the number of polls per attempt
(`timeout / interval`). -/

structure WaitCfg where
  multiple : Bool
  visible : Bool
  enabled : Bool
  throwOnTimeout : Bool
  polls : Nat
  retries : Nat
deriving DecidableEq

inductive WaitRes where
  | success (els : List ElemData)
  | nullResult
  | raised
deriving DecidableEq

/-- One selector probe inside `_waitForSelectorAttempt`: query, take
all matches or the first, then apply the visibility and enabled
filters; a query error is caught and treated as no match. -/
def qualifyOnce {σ : Type} (query : σ → Except Str (List ElemData))
    (cfg : WaitCfg) (s : σ) : Option (List ElemData) :=
  match query s with
  | .error _ => none
  | .ok all =>
      let elements := if cfg.multiple then all else all.head?.toList
      if elements.isEmpty then none
      else
        let validElements :=
          if cfg.visible then elements.filter isElementVisible else elements
        let enabledElements :=
          if cfg.enabled then validElements.filter isElementEnabled
          else validElements
        if enabledElements.isEmpty then none else some enabledElements

/-- One poll over the selector list: the first selector with a
qualifying match wins. -/
def pollSelectors {σ : Type} (query : σ → Except Str (List ElemData))
    (cfg : WaitCfg) : List σ → Option (List ElemData)
  | [] => none
  | s :: rest =>
      match qualifyOnce query cfg s with
      | some r => some r
      | none => pollSelectors query cfg rest

/-- `_waitForSelectorAttempt`: poll until the timeout budget is
exhausted, then resolve `null`. -/
def waitAttempt {σ : Type} (query : σ → Except Str (List ElemData))
    (cfg : WaitCfg) (sels : List σ) : Nat → Option (List ElemData)
  | 0 => none
  | f + 1 =>
      match pollSelectors query cfg sels with
      | some r => some r
      | none => waitAttempt query cfg sels f

/-- The attempt as the retry loop awaits it.  Its only fallible
operations are the per-selector queries, each wrapped in the inner
`try`/`catch`, so the attempt always resolves and never rejects. -/
def waitAttemptE {σ : Type} (query : σ → Except Str (List ElemData))
    (cfg : WaitCfg) (sels : List σ) (fuel : Nat) :
    Except Str (Option (List ElemData)) :=
  .ok (waitAttempt query cfg sels fuel)

/-- The retry loop of `waitForSelector`, counting remaining attempts.
The `throw`/`return null` decision sits in the `catch` branch and is
consulted only when an attempt rejects. -/
def waitLoop {σ : Type} (query : σ → Except Str (List ElemData))
    (cfg : WaitCfg) (sels : List σ) : Nat → WaitRes
  | 0 => .nullResult
  | r + 1 =>
      match waitAttemptE query cfg sels cfg.polls with
      | .ok (some res) => .success (if cfg.multiple then res else res.take 1)
      | .ok none => waitLoop query cfg sels r
      | .error _ =>
          if r = 0 then
            (if cfg.throwOnTimeout then .raised else .nullResult)
          else waitLoop query cfg sels r

/-- Shallow embedding of `RobustHelpers.waitForSelector`. -/
def waitForSelector {σ : Type} (query : σ → Except Str (List ElemData))
    (cfg : WaitCfg) (sels : List σ) : WaitRes :=
  waitLoop query cfg sels cfg.retries

/-- C1 (code bug): when no selector yields a qualifying match during
any attempt's full timeout window, `waitForSelector` falls out of its
retry loop and returns the explicit null result regardless of
`throwOnTimeout` — in particular with `throwOnTimeout = true` it does
not raise: `_waitForSelectorAttempt` resolves `null` on timeout
instead of rejecting, so the `throw` in the retry loop's `catch` block
never runs. -/
theorem waitForSelector_timeout_returns_null {σ : Type}
    (query : σ → Except Str (List ElemData)) (cfg : WaitCfg) (sels : List σ)
    (h : ∀ s ∈ sels, qualifyOnce query cfg s = none) :
    waitForSelector query cfg sels = WaitRes.nullResult := by
  have hpoll : pollSelectors query cfg sels = none := by
    induction sels with
    | nil => rfl
    | cons s rest ih =>
        unfold pollSelectors
        rw [h s (List.mem_cons_self _ _)]
        exact ih (fun x hx => h x (List.mem_cons_of_mem _ hx))
  have hatt : ∀ f, waitAttempt query cfg sels f = none := by
    intro f
    induction f with
    | zero => rfl
    | succ f ih =>
        unfold waitAttempt
        rw [hpoll]
        exact ih
  have hloop : ∀ r, waitLoop query cfg sels r = WaitRes.nullResult := by
    intro r
    induction r with
    | zero => rfl
    | succ r ih =>
        unfold waitLoop waitAttemptE
        rw [hatt cfg.polls]
        exact ih
  exact hloop cfg.retries

/-- A query environment in which no element ever matches. -/
def emptyQuery : Unit → Except Str (List ElemData) := fun _ => .ok []

/-- C1 (witness): a concrete query with no qualifying matches, default
filters, three retries and `throwOnTimeout = true` returns the null
result. -/
theorem waitForSelector_timeout_returns_null_witness :
    waitForSelector emptyQuery ⟨false, true, true, true, 100, 3⟩ [()] =
      WaitRes.nullResult :=
  waitForSelector_timeout_returns_null emptyQuery ⟨false, true, true, true, 100, 3⟩
    [()] (fun _ _ => rfl)

/-! ## Asset Gatherer (`gatherImages` and its helpers,
robust-helpers.js lines 111-278, 357-409, 572-648).

The out-of-band dimension prober (`getImageDimensions`) is an external
capability, modelled as `probe`; `probe url = none` models a failed
load, which the `.catch` handler turns into zero dimensions.  `now`
models `Date.now()`. -/

/-- Default allowed formats of `gatherImages`. -/
def defaultFormats : List Str :=
  [str "jpg", str "jpeg", str "png", str "gif", str "webp", str "svg"]

/-- Model of the scan performed by
`/url\(['"]?([^'"]+)['"]?\)/g` over a well-formed CSS value: each
`url(...)` reference with a non-empty quote-free body is captured, in
order.  (Regex backtracking on malformed values such as an unbalanced
`url('a)` is outside the modelled fragment.) -/
def cssUrlsAux : Nat → Str → List Str
  | 0, _ => []
  | _, [] => []
  | f + 1, c :: rest =>
      if isPre (str "url(") (c :: rest) then
        match (c :: rest).drop 4 with
        | [] => []
        | q :: r2 =>
            if quoteChar q then
              match splitAtFirst q r2 with
              | (cap, some rem) =>
                  if cap.isEmpty || cap.any quoteChar then cssUrlsAux f rest
                  else
                    match rem with
                    | ')' :: rem2 => cap :: cssUrlsAux f rem2
                    | _ => cssUrlsAux f rest
              | (_, none) => cssUrlsAux f rest
            else
              match splitAtFirst ')' (q :: r2) with
              | (cap, some rem2) =>
                  if cap.isEmpty || cap.any quoteChar then cssUrlsAux f rest
                  else cap :: cssUrlsAux f rem2
              | (_, none) => cssUrlsAux f rest
      else cssUrlsAux f rest

/-- `RobustHelpers.extractUrlsFromCssValue`. -/
def extractUrlsFromCssValue (l : Str) : List Str := cssUrlsAux l.length l

/-- Model of `s.split(c).pop()`: the suffix after the last `c`, or the
whole string when `c` does not occur. -/
def lastDotSeg (c : Char) (l : Str) : Str :=
  if c ∈ l then (l.reverse.takeWhile (fun x => !(x = c))).reverse else l

/-- `RobustHelpers.getImageFormat`: last dot-segment of the pathname,
lower-cased, `unknown` when empty or unparseable. -/
def getImageFormat (url : Str) : Str :=
  match parseCore url with
  | some u =>
      let ext := (lastDotSeg '.' u.path).map Char.toLower
      if ext.isEmpty then str "unknown" else ext
  | none => str "unknown"

/-- The `  /\.(jpg|jpeg|png|gif|webp|svg)(\?|$)/i` pattern of
`isValidImageUrl`. -/
def extImagePattern (url : Str) : Bool :=
  let low := url.map Char.toLower
  defaultFormats.any (fun e => isSuf ('.' :: e) low || isSub ('.' :: e ++ ['?']) low)

/-- The asset-path patterns of `isValidImageUrl`. -/
def imagePatternAny (url : Str) : Bool :=
  isSub (str "/images/") url || isSub (str "/image/") url ||
  isSub (str "/img/") url ||
  isSub (str "/photos/") url || isSub (str "/photo/") url ||
  isSub (str "/gallery/") url || isSub (str "/media/") url ||
  extImagePattern url

/-- `RobustHelpers.isValidImageUrl`. -/
def isValidImageUrl (url : Str) (formats : List Str) : Bool :=
  if url.isEmpty then false
  else if isPre (str "data:") url then isPre (str "data:image/") url
  else
    match parseCore url with
    | none => false
    | some u =>
        let ext := lastDotSeg '.' (u.path.map Char.toLower)
        if formats.contains ext then true
        else imagePatternAny url

/-- The metadata captured by `extractImageMetadata`. -/
structure ImgMeta where
  alt : Str
  title : Str
  className : Str
  idAttr : Str
  srcUrl : Str
  format : Str
  dataAttrs : List (Str × Str)
deriving DecidableEq

def extractImageMetadata (d : ElemData) (url : Str) : ImgMeta :=
  { alt := (attrGet d (str "alt")).getD []
    title := (attrGet d (str "title")).getD []
    className := d.className
    idAttr := d.idAttr
    srcUrl := url
    format := getImageFormat url
    dataAttrs := d.attrs.filter (fun p => isPre (str "data-") p.1) }

/-- One gathered image record.  `rtype` models the optional `type`
field: `some "background"` for records built by the CSS background
sweep, `none` for records built by `extractImageFromElement` (which
sets no such field).  Records from the sweep also carry no displayed
dimensions. -/
structure ImageRec where
  url : Str
  thumbnailUrl : Option Str
  element : ElemData
  natW : Nat
  natH : Nat
  displayed : Option (Nat × Nat)
  rtype : Option Str
  metadata : Option ImgMeta
  timestamp : Nat
deriving DecidableEq

/-- The first `url(...)` reference of a non-`none` computed
background image, as read by `extractImageFromElement`. -/
def bgUrl (d : ElemData) : Option Str :=
  if !d.bgImage.isEmpty && !(decide (d.bgImage = str "none")) then
    (extractUrlsFromCssValue d.bgImage).head?
  else none

/-- `RobustHelpers.extractImageFromElement` with the default config
(`includeMetadata` on, default formats). -/
def extractImageFromElement (loc : ModelURL) (probe : Str → Option (Nat × Nat))
    (now : Nat) (e : Elem) : Option ImageRec :=
  let d := e.data
  let url : Option Str :=
    if d.tag = str "img" then
      firstTruthy [attrGet d (str "src"), attrGet d (str "data-src"),
        attrGet d (str "data-lazy-src"), attrGet d (str "data-original"),
        attrGet d (str "data-url")]
    else
      firstTruthy [bgUrl d, attrGet d (str "data-background"),
        attrGet d (str "data-image")]
  let thumb : Option Str :=
    if d.tag = str "img" then
      firstTruthy [attrGet d (str "data-thumbnail"), attrGet d (str "data-thumb")]
    else none
  match url with
  | none => none
  | some u =>
      match normalizeUrl loc u with
      | none => none
      | some normalizedUrl =>
          if isValidImageUrl normalizedUrl defaultFormats then
            some
              { url := normalizedUrl
                thumbnailUrl :=
                  match thumb with
                  | some tu => normalizeUrl loc tu
                  | none => none
                element := d
                natW := ((probe normalizedUrl).getD (0, 0)).1
                natH := ((probe normalizedUrl).getD (0, 0)).2
                displayed := some (d.rectW, d.rectH)
                rtype := none
                metadata := some (extractImageMetadata d normalizedUrl)
                timestamp := now }
          else none

/-- Natural width, falling back to the displayed width
(`natural.width || displayed.width || 0`). -/
def pickW (r : ImageRec) : Nat :=
  if r.natW ≠ 0 then r.natW
  else match r.displayed with | some p => p.1 | none => 0

def pickH (r : ImageRec) : Nat :=
  if r.natH ≠ 0 then r.natH
  else match r.displayed with | some p => p.2 | none => 0

/-- `RobustHelpers.validateImageData`: the dimension gate runs only
when a minimum is configured; the format gate always runs with the
configured format list. -/
def validateImageData (minW minH : Nat) (formats : List Str) (r : ImageRec) : Bool :=
  (if minW ≠ 0 ∨ minH ≠ 0 then
      !(decide (minW ≠ 0) && decide (pickW r < minW)) &&
        !(decide (minH ≠ 0) && decide (pickH r < minH))
   else true) &&
  formats.contains (getImageFormat r.url)

/-- The default selector set of `gatherImages`. -/
def defaultGatherSelectors : List Sel :=
  [ .simple ⟨some (str "img"), [], [.present (str "src")]⟩,
    .simple ⟨some (str "img"), [], [.present (str "data-src")]⟩,
    .simple ⟨some (str "img"), [], [.present (str "data-lazy-src")]⟩,
    .simple ⟨none, [], [.containsv (str "style") (str "background-image")]⟩,
    .descendant ⟨some (str "picture"), [], []⟩ ⟨some (str "img"), [], []⟩,
    .descendant ⟨some (str "figure"), [], []⟩ ⟨some (str "img"), [], []⟩,
    .descendant ⟨none, [str "image"], []⟩ ⟨some (str "img"), [], []⟩,
    .simple ⟨none, [], [.present (str "data-background")]⟩ ]

/-- Extraction plus the validation gate, as run per element of the
selector pass. -/
def extractValidated (loc : ModelURL) (probe : Str → Option (Nat × Nat))
    (now : Nat) (e : Elem) : Option ImageRec :=
  match extractImageFromElement loc probe now e with
  | some r => if validateImageData 0 0 defaultFormats r then some r else none
  | none => none

/-- All elements of the page in document order
(`document.querySelectorAll('*')`). -/
def allElems (body : ElemList) : List Elem :=
  (forestCollect [] body).map (fun p => p.2)

/-- Background records contributed by one element of the secondary
sweep (`extractBackgroundImages`). -/
def bgRecordsOfElem (loc : ModelURL) (probe : Str → Option (Nat × Nat))
    (now : Nat) (e : Elem) : List ImageRec :=
  let d := e.data
  if !d.bgImage.isEmpty && !(decide (d.bgImage = str "none")) then
    (extractUrlsFromCssValue d.bgImage).filterMap (fun u =>
      match normalizeUrl loc u with
      | none => none
      | some nu =>
          if isValidImageUrl nu defaultFormats then
            some
              { url := nu, thumbnailUrl := none, element := d,
                natW := ((probe nu).getD (0, 0)).1,
                natH := ((probe nu).getD (0, 0)).2,
                displayed := none, rtype := some (str "background"),
                metadata := some (extractImageMetadata d nu), timestamp := now }
          else none)
  else []

/-- `RobustHelpers.extractBackgroundImages`. -/
def extractBackgroundImages (loc : ModelURL) (probe : Str → Option (Nat × Nat))
    (now : Nat) (body : ElemList) : List ImageRec :=
  List.join ((allElems body).map (bgRecordsOfElem loc probe now))

/-- The deduplication key: `this.normalizeUrl(record.url)`. -/
def gatherKey (loc : ModelURL) (r : ImageRec) : Option Str := normalizeUrl loc r.url

/-- One push into the result list guarded by the seen-URL set. -/
def dedupStep (loc : ModelURL) (dedup : Bool)
    (st : List ImageRec × List (Option Str)) (r : ImageRec) :
    List ImageRec × List (Option Str) :=
  if !dedup || !(decide (gatherKey loc r ∈ st.2)) then
    (st.1 ++ [r], st.2 ++ [gatherKey loc r])
  else st

/-- Shallow embedding of `RobustHelpers.gatherImages` with the default
config except for the explicit `deduplicateUrls` switch: the selector
pass walks the default selectors in order (document order within each),
then the background sweep is merged into the same result list under
the same seen-URL set. -/
def gatherImages (p : Page) (probe : Str → Option (Nat × Nat)) (now : Nat)
    (dedup : Bool) : List ImageRec :=
  ((extractBackgroundImages p.loc probe now p.body).foldl (dedupStep p.loc dedup)
    (defaultGatherSelectors.foldl
      (fun st sel =>
        ((queryAll sel p.body).filterMap (extractValidated p.loc probe now)).foldl
          (dedupStep p.loc dedup) st)
      ([], []))).1

/-- The selector-pass records in source order. -/
def selectorPassRecords (p : Page) (probe : Str → Option (Nat × Nat))
    (now : Nat) : List ImageRec :=
  List.join (defaultGatherSelectors.map (fun sel =>
    (queryAll sel p.body).filterMap (extractValidated p.loc probe now)))

/-- Every candidate record of a gathering pass, in source order:
selector order, then document order within a selector, with the
background sweep last. -/
def allRecs (p : Page) (probe : Str → Option (Nat × Nat)) (now : Nat) :
    List ImageRec :=
  selectorPassRecords p probe now ++ extractBackgroundImages p.loc probe now p.body

/-! ### Deduplication keeps exactly the first record per canonical URL
(claim C2). -/

/-- The records kept by the seen-URL set: a record survives iff its
key is neither in `seen` nor the key of an earlier kept record. -/
def keepNew (loc : ModelURL) (seen : List (Option Str)) :
    List ImageRec → List ImageRec
  | [] => []
  | r :: rest =>
      if gatherKey loc r ∈ seen then keepNew loc seen rest
      else r :: keepNew loc (seen ++ [gatherKey loc r]) rest

theorem foldl_dedup_spec (loc : ModelURL) :
    ∀ (l : List ImageRec) (st : List ImageRec × List (Option Str)),
      l.foldl (dedupStep loc true) st =
        (st.1 ++ keepNew loc st.2 l,
          st.2 ++ (keepNew loc st.2 l).map (gatherKey loc)) := by
  intro l
  induction l with
  | nil => intro st; simp [keepNew]
  | cons r rest ih =>
      intro st
      by_cases hmem : gatherKey loc r ∈ st.2
      · have hstep : dedupStep loc true st r = st := by
          unfold dedupStep
          simp [hmem]
        have hkeep : keepNew loc st.2 (r :: rest) = keepNew loc st.2 rest := by
          simp only [keepNew]; rw [if_pos hmem]
        rw [List.foldl_cons, hstep, ih st, hkeep]
      · have hstep : dedupStep loc true st r =
            (st.1 ++ [r], st.2 ++ [gatherKey loc r]) := by
          unfold dedupStep
          simp [hmem]
        have hkeep : keepNew loc st.2 (r :: rest) =
            r :: keepNew loc (st.2 ++ [gatherKey loc r]) rest := by
          simp only [keepNew]; rw [if_neg hmem]
        rw [List.foldl_cons, hstep, ih _, hkeep]
        simp [List.append_assoc]

theorem keepNew_not_seen (loc : ModelURL) :
    ∀ (l : List ImageRec) (seen : List (Option Str)) (r : ImageRec),
      r ∈ keepNew loc seen l → gatherKey loc r ∉ seen := by
  intro l
  induction l with
  | nil => intro seen r h; simp [keepNew] at h
  | cons x rest ih =>
      intro seen r h
      unfold keepNew at h
      by_cases hmem : gatherKey loc x ∈ seen
      · rw [if_pos hmem] at h; exact ih seen r h
      · rw [if_neg hmem] at h
        rcases List.mem_cons.mp h with h1 | h1
        · rw [h1]; exact hmem
        · intro hseen
          exact ih (seen ++ [gatherKey loc x]) r h1 (List.mem_append_left _ hseen)

theorem keepNew_keys_nodup (loc : ModelURL) :
    ∀ (l : List ImageRec) (seen : List (Option Str)),
      ((keepNew loc seen l).map (gatherKey loc)).Nodup := by
  intro l
  induction l with
  | nil => intro seen; simp [keepNew]
  | cons r rest ih =>
      intro seen
      unfold keepNew
      by_cases hmem : gatherKey loc r ∈ seen
      · rw [if_pos hmem]; exact ih seen
      · rw [if_neg hmem]
        simp only [List.map_cons, List.nodup_cons]
        refine ⟨?_, ih _⟩
        intro hmem2
        rcases List.mem_map.mp hmem2 with ⟨x, hx, hkey⟩
        apply keepNew_not_seen loc rest (seen ++ [gatherKey loc r]) x hx
        rw [hkey]
        exact List.mem_append_right _ (List.mem_singleton.mpr rfl)

theorem keepNew_filter_nil (loc : ModelURL) :
    ∀ (l : List ImageRec) (seen : List (Option Str)) (k : Option Str),
      k ∈ seen →
      (keepNew loc seen l).filter (fun x => decide (gatherKey loc x = k)) = [] := by
  intro l
  induction l with
  | nil => intro seen k _; simp [keepNew]
  | cons r rest ih =>
      intro seen k hk
      unfold keepNew
      by_cases hmem : gatherKey loc r ∈ seen
      · rw [if_pos hmem]; exact ih seen k hk
      · rw [if_neg hmem]
        have hne : ¬ (gatherKey loc r = k) := fun he => hmem (he ▸ hk)
        rw [List.filter_cons, if_neg (by simpa using hne)]
        exact ih _ k (List.mem_append_left _ hk)

theorem keepNew_filter_first (loc : ModelURL) :
    ∀ (l : List ImageRec) (seen : List (Option Str)) (k : Option Str) (r : ImageRec),
      k ∉ seen →
      l.find? (fun x => decide (gatherKey loc x = k)) = some r →
      (keepNew loc seen l).filter (fun x => decide (gatherKey loc x = k)) = [r] := by
  intro l
  induction l with
  | nil => intro seen k r _ hfind; simp at hfind
  | cons x rest ih =>
      intro seen k r hk hfind
      by_cases hpx : gatherKey loc x = k
      · rw [List.find?_cons_of_pos _ (by simpa using hpx)] at hfind
        have hrx : r = x := (Option.some.inj hfind).symm
        unfold keepNew
        rw [if_neg (show gatherKey loc x ∉ seen by rw [hpx]; exact hk)]
        rw [List.filter_cons, if_pos (by simpa using hpx)]
        rw [keepNew_filter_nil loc rest _ k
          (by rw [← hpx]; exact List.mem_append_right _ (List.mem_singleton.mpr rfl))]
        rw [hrx]
      · rw [List.find?_cons_of_neg _ (by simpa using hpx)] at hfind
        unfold keepNew
        by_cases hmem : gatherKey loc x ∈ seen
        · rw [if_pos hmem]; exact ih seen k r hk hfind
        · rw [if_neg hmem]
          rw [List.filter_cons, if_neg (by simpa using hpx)]
          apply ih _ k r ?_ hfind
          intro hmm
          rcases List.mem_append.mp hmm with h1 | h1
          · exact hk h1
          · exact hpx (List.mem_singleton.mp h1).symm

/-- The nested gathering loops are the single left fold of the
seen-URL step over all candidate records in source order. -/
theorem gatherImages_eq_fold (p : Page) (probe : Str → Option (Nat × Nat))
    (now : Nat) (dedup : Bool) :
    gatherImages p probe now dedup =
      ((allRecs p probe now).foldl (dedupStep p.loc dedup) ([], [])).1 := by
  unfold gatherImages allRecs selectorPassRecords
  rw [List.foldl_append]
  congr 2
  rw [List.foldl_join, List.foldl_map]

/-- C2: with deduplication enabled (the default), `gatherImages`
returns at most one record per deduplication key (the canonical URL),
and the record returned for a key is the first candidate record with
that key in source order — selector order, then document order within
a selector, with the background-image sweep last. -/
theorem gatherImages_dedup_first_wins (p : Page)
    (probe : Str → Option (Nat × Nat)) (now : Nat)
    (k : Option Str) (r : ImageRec)
    (h : (allRecs p probe now).find? (fun x => decide (gatherKey p.loc x = k)) =
      some r) :
    (gatherImages p probe now true).filter
        (fun x => decide (gatherKey p.loc x = k)) = [r] ∧
      ((gatherImages p probe now true).map (gatherKey p.loc)).Nodup := by
  have hg := gatherImages_eq_fold p probe now true
  rw [foldl_dedup_spec p.loc (allRecs p probe now) ([], [])] at hg
  simp only [List.nil_append] at hg
  rw [hg]
  exact ⟨keepNew_filter_first p.loc _ [] k r (by simp) h,
    keepNew_keys_nodup p.loc _ []⟩

/-- A template element with no interesting observations. -/
def baseElem : ElemData :=
  ⟨str "div", [], [], [], [], str "none", 0, 0,
    false, false, false, false, false, false, false⟩

def imgA1 : ElemData :=
  { baseElem with
    tag := str "img"
    idAttr := str "one"
    attrs := [(str "src", str "https://example.com/pics/a.jpg")]
    rectW := 100
    rectH := 80 }

def imgA2 : ElemData :=
  { baseElem with
    tag := str "img"
    idAttr := str "two"
    attrs := [(str "src", str "https://example.com/pics/a.jpg")]
    rectW := 50
    rectH := 40 }

def imgB : ElemData :=
  { baseElem with
    tag := str "img"
    idAttr := str "bee"
    attrs := [(str "src", str "https://example.com/pics/b.png")]
    rectW := 60
    rectH := 60 }

/-- A page with two distinct `img` elements resolving to the same
canonical URL and a third with a different one. -/
def pageC2 : Page :=
  ⟨exLoc, [], elemsOf [.node imgA1 .nil, .node imgA2 .nil, .node imgB .nil]⟩

def noProbe : Str → Option (Nat × Nat) := fun _ => none

def keyA : Option Str := some (str "https://example.com/pics/a.jpg")

/-- The record built from the first of the two duplicate images. -/
def recA : ImageRec :=
  { url := str "https://example.com/pics/a.jpg", thumbnailUrl := none,
    element := imgA1, natW := 0, natH := 0, displayed := some (100, 80),
    rtype := none,
    metadata := some (extractImageMetadata imgA1 (str "https://example.com/pics/a.jpg")),
    timestamp := 0 }

/-- C2 (witness): on a concrete page where two extraction sources
resolve to the same canonical URL, the gathered result keeps exactly
the first record and all canonical keys are distinct. -/
theorem gatherImages_dedup_witness :
    (gatherImages pageC2 noProbe 0 true).filter
        (fun x => decide (gatherKey pageC2.loc x = keyA)) = [recA] ∧
      ((gatherImages pageC2 noProbe 0 true).map (gatherKey pageC2.loc)).Nodup :=
  gatherImages_dedup_first_wins pageC2 noProbe 0 keyA recA (by decide)

/-! ### Background-image nodes (claim C6): resolution of `b.png`
against the page base and the single gathered record. -/

def selTag (t : String) : Sel := .simple ⟨some (str t), [], []⟩

def selCls (t : String) : Sel := .simple ⟨none, [str t], []⟩

def selClsSub (t : String) : Sel :=
  .simple ⟨none, [], [.containsv (str "class") (str t)]⟩

def selAttr (n : String) : Sel := .simple ⟨none, [], [.present (str n)]⟩

def selAttrEq (n v : String) : Sel := .simple ⟨none, [], [.eqv (str n) (str v)]⟩

def selAttrSub (n v : String) : Sel :=
  .simple ⟨none, [], [.containsv (str n) (str v)]⟩

def selTagAttrSub (t n v : String) : Sel :=
  .simple ⟨some (str t), [], [.containsv (str n) (str v)]⟩

def selTagAttr (t n : String) : Sel :=
  .simple ⟨some (str t), [], [.present (str n)]⟩

def toLowerStr (s : Str) : Str := s.map Char.toLower

/-- The elements inspected by the image-count indicator:
`img, picture source, [style*="background-image"]`. -/
def galleryImgSels : List Sel :=
  [selTag "img",
   .descendant ⟨some (str "picture"), [], []⟩ ⟨some (str "source"), [], []⟩,
   selAttrSub "style" "background-image"]

/-- The significance filter of the image-count indicator: rendered box
strictly larger than 50x50 for `img`, always for `source`, a real
non-data background image otherwise. -/
def significantImage (d : ElemData) : Bool :=
  if d.tag = str "img" then decide (50 < d.rectW) && decide (50 < d.rectH)
  else if d.tag = str "source" then true
  else !(d.bgImage.isEmpty) && !(decide (d.bgImage = str "none")) &&
    !(isSub (str "data:image") d.bgImage)

def significantImageCount (p : Page) : Nat :=
  (((queryAllAny galleryImgSels p.body).map Elem.data).filter significantImage).length

def sig1 (p : Page) : Bool := decide (8 ≤ significantImageCount p)

def titleKeywords : List Str :=
  [str "gallery", str "portfolio", str "photo", str "image", str "album",
   str "collection", str "catalog", str "artwork", str "media", str "browse",
   str "search", str "stock", str "pic", str "visual", str "exhibit",
   str "showcase", str "board", str "stream", str "feed"]

def sig2 (p : Page) : Bool :=
  titleKeywords.any (fun k => isSub k (toLowerStr p.title))

def pathKeywords : List Str :=
  [str "gallery", str "portfolio", str "photo", str "image", str "album",
   str "collection", str "catalog", str "browse", str "search", str "media",
   str "pic", str "visual", str "exhibit", str "showcase", str "board",
   str "stream", str "feed"]

def sig3 (p : Page) : Bool :=
  pathKeywords.any (fun k => isSub k (toLowerStr p.loc.path))

def sig4 (p : Page) : Bool :=
  existsMatch
    [selClsSub "gallery", selClsSub "portfolio", selClsSub "photo",
     selClsSub "image-grid", selClsSub "grid", selClsSub "masonry",
     selClsSub "thumbnail", selClsSub "tile", selClsSub "card-grid",
     selClsSub "media-grid", selClsSub "asset-grid"] p.body

def sig5 (p : Page) : Bool :=
  existsMatch
    [selAttr "data-gallery", selAttr "data-portfolio", selAttr "data-photos",
     selAttr "data-grid", selAttr "data-masonry", selAttr "data-lightbox",
     selAttr "data-fancybox", selAttr "data-photoswipe"] p.body

def sig6 (p : Page) : Bool :=
  existsMatch
    [selCls "product-grid", selCls "product-list", selCls "products",
     selClsSub "product-item", selCls "listing-grid", selCls "search-results",
     selCls "browse-grid", selCls "category-grid"] p.body

def sig7 (p : Page) : Bool :=
  existsMatch
    [.descendant ⟨none, [], [.eqv (str "role") (str "grid")]⟩ ⟨some (str "img"), [], []⟩,
     selCls "photo-grid", selCls "image-grid", selCls "content-grid",
     .descendant ⟨none, [str "feed"], []⟩ ⟨some (str "img"), [], []⟩,
     .descendant ⟨none, [str "timeline"], []⟩ ⟨some (str "img"), [], []⟩,
     .descendant ⟨none, [str "posts"], []⟩ ⟨some (str "img"), [], []⟩,
     .descendant ⟨none, [str "cards"], []⟩ ⟨some (str "img"), [], []⟩] p.body

def sig8 (p : Page) : Bool :=
  decide (5 ≤ (queryAllAny
    [selAttr "data-src", selAttr "data-lazy", selAttrEq "loading" "lazy",
     selAttr "data-srcset", selTagAttrSub "img" "src" "placeholder",
     selTagAttrSub "img" "src" "loading"] p.body).length)

def profKeywords : List Str :=
  [str "stock", str "premium", str "royalty", str "license", str "download",
   str "resolution", str "watermark", str "preview", str "comp",
   str "editorial", str "commercial"]

def sig9 (p : Page) : Bool :=
  profKeywords.any (fun k =>
    isSub k (toLowerStr (p.title ++ [' '] ++ bodyText p)))

def sig10 (p : Page) : Bool :=
  existsMatch
    [selCls "pagination", selCls "page-numbers", selClsSub "pager",
     selCls "load-more", selAttrSub "aria-label" "next",
     selAttrSub "aria-label" "page", selCls "infinite-scroll"] p.body

def sig11 (p : Page) : Bool :=
  decide (6 ≤ (queryAllAny
    [selTag "figure", selCls "figure", selCls "image-container",
     selCls "photo-container", selCls "thumbnail-container",
     selCls "media-container"] p.body).length)

def sig12 (p : Page) : Bool :=
  decide (3 ≤ (queryAllAny
    [selAttrSub "style" "display: grid", selAttrSub "style" "display: flex",
     selCls "grid", selCls "flex", selCls "d-flex", selCls "d-grid",
     selClsSub "col-", selClsSub "row", selClsSub "grid-",
     selCls "masonry", selCls "isotope", selCls "packery"] p.body).length)

def sig13 (p : Page) : Bool :=
  decide (3 ≤ (queryAllAny
    [selTagAttrSub "img" "src" ".webp", selTagAttrSub "img" "src" ".avif",
     selTagAttrSub "source" "type" "webp", selTagAttrSub "source" "type" "avif",
     selAttr "data-srcset", selTagAttr "img" "sizes"] p.body).length)

def socialKeywords : List Str :=
  [str "instagram", str "pinterest", str "flickr", str "behance",
   str "dribbble", str "unsplash", str "pexels", str "shutterstock",
   str "getty", str "alamy", str "artstation", str "deviantart",
   str "tumblr", str "reddit"]

def sig14 (p : Page) : Bool :=
  socialKeywords.any (fun k =>
    isSub k (toLowerStr (serializeURL p.loc ++ [' '] ++ p.title)))

/-- Shallow embedding of `detectGalleryPage`: the ordered indicator
list, any one true classifying the page as a gallery. -/
def detectGalleryPage (p : Page) : Bool :=
  [sig1 p, sig2 p, sig3 p, sig4 p, sig5 p, sig6 p, sig7 p, sig8 p,
   sig9 p, sig10 p, sig11 p, sig12 p, sig13 p, sig14 p].any (fun b => b)

/-- C5 (amended claim): the significant-image-count signal alone
suffices — every page with at least 8 significant images (visible
`img` elements rendered strictly larger than 50x50) is classified as a
gallery, whatever the other signals say.  (The unamended claim with
images of size at least 50x50 fails: the code requires `> 50`, so
exactly-50x50 images do not count; see the counterexample below.) -/
theorem detectGalleryPage_of_significant_images (p : Page)
    (h : 8 ≤ significantImageCount p) : detectGalleryPage p = true := by
  unfold detectGalleryPage
  simp [sig1, h]

/-- An image rendered at exactly 50x50, visible, with no gallery hints. -/
def img50 : ElemData :=
  { baseElem with
    tag := str "img"
    attrs := [(str "src", str "https://example.com/x.jpg")]
    rectW := 50
    rectH := 50 }

/-- A page with ten visible 50x50 images and no gallery keywords. -/
def pageC5 : Page :=
  ⟨⟨str "https", str "example.com", str "/", none, none⟩, [],
    elemsOf (List.replicate 10 (Elem.node img50 ElemList.nil))⟩

/-- C5 (counterexample): a page with 10 visible images of rendered
size exactly 50x50 (hence "at least 50x50") and no gallery keywords in
title or path is not detected as a gallery: the image-count signal
requires a box strictly larger than 50x50. -/
theorem detectGalleryPage_fifty_counterexample :
    (((allElems pageC5.body).map Elem.data).filter
        (fun d => decide (d.tag = str "img"))).length = 10 ∧
    ((allElems pageC5.body).map Elem.data).all
      (fun d => isElementVisible d && decide (50 ≤ d.rectW) &&
        decide (50 ≤ d.rectH) && decide (d.tag = str "img")) = true ∧
    sig2 pageC5 = false ∧ sig3 pageC5 = false ∧
    detectGalleryPage pageC5 = false := by
  refine ⟨by decide, by decide, by decide, by decide, by decide⟩

/-- An image rendered at 51x51. -/
def img51 : ElemData :=
  { baseElem with
    tag := str "img"
    attrs := [(str "src", str "https://example.com/x.jpg")]
    rectW := 51
    rectH := 51 }

def pageC5b : Page :=
  ⟨⟨str "https", str "example.com", str "/", none, none⟩, [],
    elemsOf (List.replicate 10 (Elem.node img51 ElemList.nil))⟩

/-- C5 (witness): ten visible 51x51 images alone trigger detection. -/
theorem detectGalleryPage_of_significant_images_witness :
    detectGalleryPage pageC5b = true :=
  detectGalleryPage_of_significant_images pageC5b (by decide)

/-! ## SelectorCache (injector.js lines 159-190).

`this.cache` is a JS `Map`: an insertion-ordered association list with
unique keys.  `Map.set` on a present key replaces the value in place
(keeping the position); on an absent key it appends; `Map.delete`
removes the entry with that key; `Map.keys().next().value` is the
first key in insertion order. -/

structure CacheEntry where
  selectors : List Str
  timestamp : Int
  deriving DecidableEq

abbrev Cache := List (Str × CacheEntry)

def jsMapGet : Cache → Str → Option CacheEntry
  | [], _ => none
  | (k, e) :: rest, key => if k = key then some e else jsMapGet rest key

def jsMapSet : Cache → Str → CacheEntry → Cache
  | [], key, v => [(key, v)]
  | (k, e) :: rest, key, v =>
    if k = key then (k, v) :: rest else (k, e) :: jsMapSet rest key v

def jsMapDelete : Cache → Str → Cache
  | [], _ => []
  | (k, e) :: rest, key => if k = key then rest else (k, e) :: jsMapDelete rest key

/-- `this.cache.keys().next().value`: the first key in insertion order. -/
def firstKey : Cache → Option Str
  | [] => none
  | (k, _) :: _ => some k

/-- The eviction step of `setCachedSelector`: delete the entry under
the first key (no-op on an empty map, where `next().value` is
`undefined`). -/
def evictOldest (c : Cache) : Cache :=
  match firstKey c with
  | none => c
  | some k => jsMapDelete c k

/-- Shallow embedding of `SelectorCache.getCachedSelector`: a lookup
whose entry is fresh iff `cached.timestamp > Date.now() - 300000`.
The method is modelled state-passing (result, cache-after) so that
absence of mutation is a theorem, not a modelling assumption. -/
def getCachedSelector (c : Cache) (now : Int) (key : Str) :
    Option (List Str) × Cache :=
  match jsMapGet c key with
  | some e => if now - 300000 < e.timestamp then (some e.selectors, c) else (none, c)
  | none => (none, c)

def maxCacheSize : Nat := 100

/-- Shallow embedding of `SelectorCache.setCachedSelector`: evict the
first-inserted entry when the map is at capacity, then set. -/
def setCachedSelector (c : Cache) (now : Int) (key : Str)
    (sel : List Str) : Cache :=
  jsMapSet (if maxCacheSize ≤ c.length then evictOldest c else c) key
    ⟨sel, now⟩

/-- One recorded insertion: key, selectors, clock reading. -/
structure CacheOp where
  key : Str
  sel : List Str
  now : Int

def applyOp (c : Cache) (op : CacheOp) : Cache :=
  setCachedSelector c op.now op.key op.sel

theorem jsMapSet_length_le (c : Cache) (k : Str) (v : CacheEntry) :
    (jsMapSet c k v).length ≤ c.length + 1 := by
  induction c with
  | nil => simp [jsMapSet]
  | cons p rest ih =>
    obtain ⟨k0, e0⟩ := p
    by_cases h : k0 = k
    · simp [jsMapSet, h]
    · simp only [jsMapSet, if_neg h, List.length_cons]
      omega

theorem evictOldest_cons (p : Str × CacheEntry) (rest : Cache) :
    evictOldest (p :: rest) = rest := by
  obtain ⟨k0, e0⟩ := p
  simp [evictOldest, firstKey, jsMapDelete]

theorem setCachedSelector_length_le (c : Cache) (now : Int) (k : Str)
    (v : List Str) (h : c.length ≤ 100) :
    (setCachedSelector c now k v).length ≤ 100 := by
  unfold setCachedSelector
  by_cases hfull : maxCacheSize ≤ c.length
  · rw [if_pos hfull]
    cases c with
    | nil => simp [maxCacheSize] at hfull
    | cons p rest =>
      rw [evictOldest_cons]
      have := jsMapSet_length_le rest k ⟨v, now⟩
      have hl : rest.length + 1 ≤ 100 := by
        simpa using h
      omega
  · rw [if_neg hfull]
    have := jsMapSet_length_le c k ⟨v, now⟩
    simp only [maxCacheSize, not_le] at hfull
    omega

theorem cacheFold_length_le (ops : List CacheOp) (c : Cache)
    (h : c.length ≤ 100) : (ops.foldl applyOp c).length ≤ 100 := by
  induction ops generalizing c with
  | nil => simpa using h
  | cons op rest ih =>
    simp only [List.foldl_cons]
    exact ih _ (setCachedSelector_length_le c op.now op.key op.sel h)

theorem jsMapSet_append_of_not_mem (c : Cache) (k : Str) (v : CacheEntry)
    (h : k ∉ c.map Prod.fst) : jsMapSet c k v = c ++ [(k, v)] := by
  induction c with
  | nil => simp [jsMapSet]
  | cons p rest ih =>
    obtain ⟨k0, e0⟩ := p
    simp only [List.map_cons, List.mem_cons] at h
    push_neg at h
    have hk : k0 ≠ k := fun he => h.1 he.symm
    simp only [jsMapSet, if_neg hk, List.cons_append]
    rw [ih h.2]

/-- C4: (i) starting from the empty cache, no sequence of
`setCachedSelector` insertions ever leaves more than 100 entries;
(ii) an insertion into a cache at capacity first removes exactly the
first-inserted (head) entry — insertion order, not recency of access —
and then performs the `Map.set`; (iii) in particular, a fresh key
inserted into a full cache yields the 99 younger entries followed by
the new one. -/
theorem selectorCache_capacity_and_fifo :
    (∀ ops : List CacheOp, (ops.foldl applyOp []).length ≤ 100) ∧
    (∀ (p : Str × CacheEntry) (rest : Cache) (now : Int) (k : Str)
      (v : List Str), 100 ≤ (p :: rest).length →
      setCachedSelector (p :: rest) now k v = jsMapSet rest k ⟨v, now⟩) ∧
    (∀ (p : Str × CacheEntry) (rest : Cache) (now : Int) (k : Str)
      (v : List Str), 100 ≤ (p :: rest).length → k ∉ rest.map Prod.fst →
      setCachedSelector (p :: rest) now k v = rest ++ [(k, ⟨v, now⟩)]) := by
  refine ⟨fun ops => cacheFold_length_le ops [] (by simp), ?_, ?_⟩
  · intro p rest now k v hfull
    unfold setCachedSelector
    rw [if_pos (by simpa [maxCacheSize] using hfull), evictOldest_cons]
  · intro p rest now k v hfull hmem
    unfold setCachedSelector
    rw [if_pos (by simpa [maxCacheSize] using hfull), evictOldest_cons,
      jsMapSet_append_of_not_mem rest k ⟨v, now⟩ hmem]

/-- A full cache: 100 entries with pairwise distinct keys. -/
def c100 : Cache :=
  (List.range 100).map (fun i => (List.replicate i 'a', ⟨[], 0⟩))

/-- C4 (witness): inserting a fresh key into the concrete full cache
`c100` drops exactly the head entry and appends the new entry. -/
theorem selectorCache_capacity_and_fifo_witness :
    100 ≤ c100.length ∧ str "z" ∉ c100.tail.map Prod.fst ∧
    setCachedSelector c100 7 (str "z") [str "s"] =
      c100.tail ++ [(str "z", ⟨[str "s"], 7⟩)] := by
  refine ⟨by decide, by decide, ?_⟩
  have h := selectorCache_capacity_and_fifo.2.2 (List.replicate 0 'a', ⟨[], 0⟩)
    c100.tail 7 (str "z") [str "s"]
  have hc : c100 = (List.replicate 0 'a', (⟨[], 0⟩ : CacheEntry)) :: c100.tail := by
    decide
  rw [hc]
  exact h (by decide) (by decide)

/-- C10: `getCachedSelector` never mutates the cache — the state it
returns is the one it was given, for every key and clock, so an
expired entry keeps occupying capacity — and a lookup whose entry has
`timestamp <= now - 300000` (older than the 5-minute TTL) returns
`null`. -/
theorem getCachedSelector_no_mutation (c : Cache) (now : Int) (k : Str) :
    (getCachedSelector c now k).2 = c ∧
    (∀ e, jsMapGet c k = some e → e.timestamp ≤ now - 300000 →
      (getCachedSelector c now k).1 = none) := by
  constructor
  · unfold getCachedSelector
    cases jsMapGet c k with
    | none => rfl
    | some e =>
      by_cases h : now - 300000 < e.timestamp
      · simp [h]
      · simp [h]
  · intro e he hexp
    simp only [getCachedSelector, he]
    rw [if_neg (by omega)]

/-- An expired single-entry cache. -/
def cExp : Cache := [(str "k", ⟨[str "sel"], 0⟩)]

/-- C10 (witness): at clock 400000 the entry written at clock 0 is
expired; the lookup returns `null` and the cache is unchanged. -/
theorem getCachedSelector_no_mutation_witness :
    jsMapGet cExp (str "k") = some ⟨[str "sel"], 0⟩ ∧
    (0 : Int) ≤ 400000 - 300000 ∧
    (getCachedSelector cExp 400000 (str "k")).2 = cExp ∧
    (getCachedSelector cExp 400000 (str "k")).1 = none :=
  ⟨rfl, by decide,
   (getCachedSelector_no_mutation cExp 400000 (str "k")).1,
   (getCachedSelector_no_mutation cExp 400000 (str "k")).2
     ⟨[str "sel"], 0⟩ rfl (by decide)⟩

/-! ## batchProcess (robust-helpers.js lines 916-951).

`config` is built as `{ batchSize: options.batchSize || 5, ...,
...options }`: the trailing spread re-overrides the defaulted fields
with the raw option values whenever the key is present, so the
effective batch size is `options.batchSize` when the key is given and
5 otherwise (with `batchSize: 0` given, the loop index never advances
and the call never returns; the theorems therefore assume a positive
effective batch size).  Workers are deterministic `Except`-valued
functions of (global index, element); `Promise.all` returns its
results in input-array position order whatever the completion order,
and in this synchronous model its rejection, under
`continueOnError: false`, is the per-chunk failure of least index.
The inter-batch delay does not affect results and is not modelled. -/

def cfgBatchSize (o : Option Nat) : Nat := o.getD 5

/-- A `results` array entry: a worker value, or the caught-error
record `\x7b error, element, index \x7d`. -/
inductive BEntry (ε α β : Type) where
  | ok (b : β)
  | failed (e : ε) (element : α) (index : Nat)
  deriving DecidableEq

def chunksOfAux {α : Type} : Nat → Nat → List α → List (List α)
  | 0, _, _ => []
  | _ + 1, _, [] => []
  | fuel + 1, n, x :: xs => ((x :: xs).take n) :: chunksOfAux fuel n ((x :: xs).drop n)

/-- `elements.slice(i, i + batchSize)` chunking of the for-loop. -/
def chunksOf {α : Type} (n : Nat) (l : List α) : List (List α) :=
  chunksOfAux l.length n l

/-- One mapped batch promise at global offset `off`: the `try`/`catch`
around `processor(element, i + index)`. -/
def processChunk {α ε β : Type} :
    Bool → (Nat → α → Except ε β) → Nat → List α →
      Except ε (List (BEntry ε α β))
  | _, _, _, [] => .ok []
  | cont, w, off, x :: xs =>
    match w off x with
    | .ok b =>
      match processChunk cont w (off + 1) xs with
      | .ok rest => .ok (.ok b :: rest)
      | .error e2 => .error e2
    | .error e =>
      if cont then
        match processChunk cont w (off + 1) xs with
        | .ok rest => .ok (.failed e x off :: rest)
        | .error e2 => .error e2
      else .error e

/-- The outer batch loop: `await Promise.all` per chunk, results
concatenated in order; a rejected chunk rejects the whole call and no
later chunk runs. -/
def goChunks {α ε β : Type} :
    Bool → (Nat → α → Except ε β) → Nat → List (List α) →
      Except ε (List (BEntry ε α β))
  | _, _, _, [] => .ok []
  | cont, w, off, c :: cs =>
    match processChunk cont w off c with
    | .error e => .error e
    | .ok rs =>
      match goChunks cont w (off + c.length) cs with
      | .error e => .error e
      | .ok rest => .ok (rs ++ rest)

/-- Shallow embedding of `RobustHelpers.batchProcess`. -/
def batchProcess {α ε β : Type} (items : List α)
    (w : Nat → α → Except ε β) (bs : Option Nat) (cont : Bool) :
    Except ε (List (BEntry ε α β)) :=
  goChunks cont w 0 (chunksOf (cfgBatchSize bs) items)

/-- The entry position `i` must hold: the worker value, or the
error-tagged record for that same element and index. -/
def expectedEntry {α ε β : Type} (w : Nat → α → Except ε β) (i : Nat)
    (x : α) : BEntry ε α β :=
  match w i x with
  | .ok b => .ok b
  | .error e => .failed e x i

def expectedResults {α ε β : Type} (w : Nat → α → Except ε β) :
    Nat → List α → List (BEntry ε α β)
  | _, [] => []
  | off, x :: xs => expectedEntry w off x :: expectedResults w (off + 1) xs

/-- The error of the least failing index, if any. -/
def firstFailure {α ε β : Type} (w : Nat → α → Except ε β) :
    Nat → List α → Option ε
  | _, [] => none
  | off, x :: xs =>
    match w off x with
    | .error e => some e
    | .ok _ => firstFailure w (off + 1) xs

theorem chunksOfAux_join {α : Type} :
    ∀ (fuel n : Nat) (l : List α), 1 ≤ n → l.length ≤ fuel →
      (chunksOfAux fuel n l).flatten = l := by
  intro fuel
  induction fuel with
  | zero =>
    intro n l _ hl
    have : l = [] := List.length_eq_zero.mp (Nat.le_zero.mp hl)
    subst this
    rfl
  | succ f ih =>
    intro n l hn hl
    cases l with
    | nil => rfl
    | cons x xs =>
      have hdrop : ((x :: xs).drop n).length ≤ f := by
        simp only [List.length_drop, List.length_cons] at *
        omega
      simp only [chunksOfAux, List.flatten_cons]
      rw [ih n ((x :: xs).drop n) hn hdrop, List.take_append_drop]

theorem chunksOf_join {α : Type} (n : Nat) (l : List α) (hn : 1 ≤ n) :
    (chunksOf n l).flatten = l :=
  chunksOfAux_join l.length n l hn (Nat.le_refl _)

theorem expectedResults_length {α ε β : Type} (w : Nat → α → Except ε β) :
    ∀ (l : List α) (off), (expectedResults w off l).length = l.length := by
  intro l
  induction l with
  | nil => intro off; rfl
  | cons x xs ih =>
    intro off
    simp only [expectedResults, List.length_cons, ih]

theorem expectedResults_append {α ε β : Type} (w : Nat → α → Except ε β) :
    ∀ (l1 l2 : List α) (off),
      expectedResults w off (l1 ++ l2) =
        expectedResults w off l1 ++ expectedResults w (off + l1.length) l2 := by
  intro l1
  induction l1 with
  | nil => intro l2 off; simp [expectedResults]
  | cons x xs ih =>
    intro l2 off
    simp only [List.cons_append, expectedResults, List.length_cons]
    have hax : xs.append l2 = xs ++ l2 := rfl
    have h : off + 1 + xs.length = off + (xs.length + 1) := by omega
    rw [hax, ih, h]

theorem expectedResults_getElem {α ε β : Type} (w : Nat → α → Except ε β) :
    ∀ (l : List α) (off i),
      (expectedResults w off l)[i]? = (l[i]?).map (expectedEntry w (off + i)) := by
  intro l
  induction l with
  | nil => intro off i; simp [expectedResults]
  | cons x xs ih =>
    intro off i
    cases i with
    | zero => simp [expectedResults]
    | succ j =>
      simp only [expectedResults, List.getElem?_cons_succ]
      have h : off + 1 + j = off + (j + 1) := by omega
      rw [ih, h]

theorem firstFailure_append {α ε β : Type} (w : Nat → α → Except ε β) :
    ∀ (l1 l2 : List α) (off),
      firstFailure w off (l1 ++ l2) =
        match firstFailure w off l1 with
        | some e => some e
        | none => firstFailure w (off + l1.length) l2 := by
  intro l1
  induction l1 with
  | nil => intro l2 off; simp [firstFailure]
  | cons x xs ih =>
    intro l2 off
    cases hw : w off x with
    | error e =>
      simp only [List.cons_append, firstFailure, hw, List.length_cons]
    | ok b =>
      simp only [List.cons_append, firstFailure, hw, List.length_cons]
      have hax : xs.append l2 = xs ++ l2 := rfl
      have h : off + 1 + xs.length = off + (xs.length + 1) := by omega
      rw [hax, ih, h]

theorem processChunk_true {α ε β : Type} (w : Nat → α → Except ε β) :
    ∀ (c : List α) (off),
      processChunk true w off c = .ok (expectedResults w off c) := by
  intro c
  induction c with
  | nil => intro off; rfl
  | cons x xs ih =>
    intro off
    cases hw : w off x with
    | ok b => simp [processChunk, hw, ih, expectedResults, expectedEntry]
    | error e => simp [processChunk, hw, ih, expectedResults, expectedEntry]

theorem processChunk_false {α ε β : Type} (w : Nat → α → Except ε β) :
    ∀ (c : List α) (off),
      processChunk false w off c =
        match firstFailure w off c with
        | some e => .error e
        | none => .ok (expectedResults w off c) := by
  intro c
  induction c with
  | nil => intro off; rfl
  | cons x xs ih =>
    intro off
    cases hw : w off x with
    | error e => simp [processChunk, firstFailure, hw]
    | ok b =>
      simp only [processChunk, firstFailure, hw, ih]
      cases hf : firstFailure w (off + 1) xs <;>
        simp [hf, expectedResults, expectedEntry, hw]

theorem goChunks_true {α ε β : Type} (w : Nat → α → Except ε β) :
    ∀ (cs : List (List α)) (off),
      goChunks true w off cs = .ok (expectedResults w off cs.flatten) := by
  intro cs
  induction cs with
  | nil => intro off; rfl
  | cons c cs ih =>
    intro off
    simp only [goChunks, List.flatten_cons, processChunk_true w c off, ih,
      expectedResults_append]

theorem goChunks_false {α ε β : Type} (w : Nat → α → Except ε β) :
    ∀ (cs : List (List α)) (off),
      goChunks false w off cs =
        match firstFailure w off cs.flatten with
        | some e => .error e
        | none => .ok (expectedResults w off cs.flatten) := by
  intro cs
  induction cs with
  | nil => intro off; rfl
  | cons c cs ih =>
    intro off
    simp only [goChunks, List.flatten_cons, processChunk_false w c off,
      firstFailure_append]
    cases hf : firstFailure w off c with
    | some e => simp [hf]
    | none =>
      simp only [hf, ih]
      cases hf2 : firstFailure w (off + c.length) cs.flatten <;>
        simp [hf2, expectedResults_append]

theorem batchProcess_true_eq {α ε β : Type} (items : List α)
    (w : Nat → α → Except ε β) (bs : Option Nat)
    (hbs : 1 ≤ cfgBatchSize bs) :
    batchProcess items w bs true = .ok (expectedResults w 0 items) := by
  unfold batchProcess
  rw [goChunks_true w (chunksOf (cfgBatchSize bs) items) 0, chunksOf_join _ _ hbs]

theorem batchProcess_false_eq {α ε β : Type} (items : List α)
    (w : Nat → α → Except ε β) (bs : Option Nat)
    (hbs : 1 ≤ cfgBatchSize bs) :
    batchProcess items w bs false =
      match firstFailure w 0 items with
      | some e => .error e
      | none => .ok (expectedResults w 0 items) := by
  unfold batchProcess
  rw [goChunks_false w (chunksOf (cfgBatchSize bs) items) 0, chunksOf_join _ _ hbs]

/-- C8: with `continueOnError: true` and a positive effective batch
size, `batchProcess` resolves with exactly one entry per input item —
the list of expected entries — the result has the input's length, and
the entry at every position `i` is the outcome of the worker on the
input item at position `i` (value, or error-tagged record carrying
that element and index).  `Promise.all` fixes result positions by
input position, so the per-chunk completion order cannot disturb
this. -/
theorem batchProcess_positional {α ε β : Type} (items : List α)
    (w : Nat → α → Except ε β) (bs : Option Nat)
    (hbs : 1 ≤ cfgBatchSize bs) :
    batchProcess items w bs true = .ok (expectedResults w 0 items) ∧
    (expectedResults w 0 items).length = items.length ∧
    ∀ i, (expectedResults w 0 items)[i]? = (items[i]?).map (expectedEntry w i) := by
  refine ⟨batchProcess_true_eq items w bs hbs, expectedResults_length w items 0, ?_⟩
  intro i
  rw [expectedResults_getElem w items 0 i, Nat.zero_add]

def itemsC8 : List Nat := [10, 0, 20]

def wkC8 (i x : Nat) : Except Str Nat :=
  if x = 0 then .error (str "zero") else .ok (x + i)

/-- C8 (witness): three items in chunks of two; the failing middle
item yields the tagged record at position 1. -/
theorem batchProcess_positional_witness :
    batchProcess itemsC8 wkC8 (some 2) true =
      .ok [BEntry.ok 10, BEntry.failed (str "zero") 0 1, BEntry.ok 22] :=
  ((batchProcess_positional itemsC8 wkC8 (some 2) (by decide)).1).trans (by rfl)

/-- C7: with a positive effective batch size: (i) under
`continueOnError: true` (the default) every per-item failure is caught
and becomes an error-tagged entry at that item's position while all
other items are still processed — the call always resolves with one
entry per item; (ii) under `continueOnError: false` the first worker
failure (least failing index in this deterministic model) rejects the
whole call, so no entry list is produced and the batches after the
failing one never run. -/
theorem batchProcess_continueOnError {α ε β : Type} (items : List α)
    (w : Nat → α → Except ε β) (bs : Option Nat)
    (hbs : 1 ≤ cfgBatchSize bs) :
    (∃ rs, batchProcess items w bs true = .ok rs ∧
      rs.length = items.length ∧
      ∀ i x e, items[i]? = some x → w i x = .error e →
        rs[i]? = some (.failed e x i)) ∧
    (∀ e, firstFailure w 0 items = some e →
      batchProcess items w bs false = .error e) := by
  constructor
  · refine ⟨expectedResults w 0 items, batchProcess_true_eq items w bs hbs,
      expectedResults_length w items 0, ?_⟩
    intro i x e hx hw
    rw [expectedResults_getElem w items 0 i, Nat.zero_add, hx]
    simp [expectedEntry, hw]
  · intro e he
    rw [batchProcess_false_eq items w bs hbs, he]

def itemsC7 : List Nat := [1, 0, 2]

def wkC7 (i x : Nat) : Except Str Nat :=
  if x = 0 then .error (str "boom") else .ok (x + i)

/-- C7 (witness): the failure at index 1 rejects the
`continueOnError: false` call with that error. -/
theorem batchProcess_continueOnError_witness :
    firstFailure wkC7 0 itemsC7 = some (str "boom") ∧
    batchProcess itemsC7 wkC7 (some 2) false = .error (str "boom") :=
  ⟨rfl, (batchProcess_continueOnError itemsC7 wkC7 (some 2) (by decide)).2
    (str "boom") rfl⟩

/-! ## smartElementDetection (robust-helpers.js lines 724-814).

The scorer walks every element in document order, skips invisible
elements unless `includeInvisible`, accumulates the feature weights
0.3 / 0.2 / 0.2 / 0.1 / 0.1 / 0.1 / 0.1 and the content-analysis
bonus 0.2, keeps candidates with `score >= config.minScore`
(`criteria.minScore || 0.7`, re-overridden by the trailing spread when
the key is present), and sorts with the comparator
`(a, b) => b.score - a.score` — a stable sort per the ECMAScript
specification, so equal scores keep document order.  Scores are
modelled in exact tenths (Nat); the JS double accumulation, in the
code's fixed addition order, was checked by hand to agree with exact
tenths on both sides of the default threshold 0.7 for every feature
subset, and the threshold is kept abstract here. -/

mutual
def anyElemE (pred : ElemData → Bool) : Elem → Bool
  | .node d cs => pred d || anyElemF pred cs
def anyElemF (pred : ElemData → Bool) : ElemList → Bool
  | .nil => false
  | .cons e es => anyElemE pred e || anyElemF pred es
end

/-- `element.querySelector(sel)` as a Boolean: does any strict
descendant satisfy the predicate. -/
def descAny (pred : ElemData → Bool) : Elem → Bool
  | .node _ cs => anyElemF pred cs

def hasImageF (e : Elem) : Bool :=
  descAny (fun d => decide (d.tag = str "img") || decide (d.tag = str "picture") ||
    decide (d.tag = str "svg")) e

def hasVideoF (e : Elem) : Bool :=
  descAny (fun d => decide (d.tag = str "video")) e

def hasLinkF (e : Elem) : Bool :=
  decide (e.data.tag = str "a") || descAny (fun d => decide (d.tag = str "a")) e

def hasTextF (e : Elem) : Bool :=
  decide (0 < (jsTrim (textContentE e)).length)

def hasClsF (e : Elem) : Bool := !(e.data.className.isEmpty)

def hasIdF (e : Elem) : Bool := !(e.data.idAttr.isEmpty)

def hasDataAttrsF (e : Elem) : Bool :=
  e.data.attrs.any (fun a => isPre (str "data-") a.1)

def imageTerms : List Str :=
  [str "gallery", str "photo", str "image", str "picture", str "media",
   str "thumb"]

/-- The content-analysis bonus (`config.contentAnalysis`, default on):
0.2 when a gallery term occurs in the lowercased text content or
class string. -/
def contentBoost (ca : Bool) (e : Elem) : Nat :=
  if ca then
    (if imageTerms.any (fun t => isSub t (toLowerStr (textContentE e)) ||
        isSub t (toLowerStr e.data.className)) then 2 else 0)
  else 0

/-- The accumulated feature score of one element, in tenths. -/
def scoreOf (ca : Bool) (e : Elem) : Nat :=
  (if hasImageF e then 3 else 0) + (if hasVideoF e then 2 else 0) +
  (if hasLinkF e then 2 else 0) + (if hasTextF e then 1 else 0) +
  (if hasClsF e then 1 else 0) + (if hasIdF e then 1 else 0) +
  (if hasDataAttrsF e then 1 else 0) + contentBoost ca e

/-- A `candidates` entry; `features` and `rect` are recomputable from
`element` and are not repeated here. -/
structure Candidate where
  element : Elem
  score : Nat

/-- The scored candidate pool before the threshold: every element of
the page in document order, minus the invisible ones unless
`includeInvisible`. -/
def scoredCandidates (p : Page) (inc ca : Bool) : List Candidate :=
  ((allElems p.body).filter (fun e => inc || isElementVisible e.data)).map
    (fun e => ⟨e, scoreOf ca e⟩)

/-- Insert into a descending-sorted list, before the first entry of
lower-or-equal score: the position a stable descending sort gives an
element standing before equal-scored ones. -/
def insDesc (c : Candidate) : List Candidate → List Candidate
  | [] => [c]
  | x :: xs => if c.score < x.score then x :: insDesc c xs else c :: x :: xs

/-- Stable descending sort by score: the unique stable arrangement
`candidates.sort((a, b) => b.score - a.score)` produces. -/
def sortDesc : List Candidate → List Candidate
  | [] => []
  | x :: xs => insDesc x (sortDesc xs)

/-- Shallow embedding of `RobustHelpers.smartElementDetection`
(result list only; `ms` is the effective `minScore` in tenths). -/
def smartElementDetection (p : Page) (ms : Nat) (inc ca : Bool) :
    List Candidate :=
  sortDesc ((scoredCandidates p inc ca).filter (fun c => ms ≤ c.score))

theorem mem_insDesc (c y : Candidate) :
    ∀ l, y ∈ insDesc c l ↔ y = c ∨ y ∈ l := by
  intro l
  induction l with
  | nil => simp [insDesc]
  | cons x xs ih =>
    by_cases h : c.score < x.score
    · simp only [insDesc, if_pos h, List.mem_cons, ih]
      tauto
    · simp only [insDesc, if_neg h, List.mem_cons]

theorem insDesc_sorted (c : Candidate) :
    ∀ l, List.Sorted (fun a b => b.score ≤ a.score) l →
      List.Sorted (fun a b => b.score ≤ a.score) (insDesc c l) := by
  intro l
  induction l with
  | nil => intro _; simp [insDesc]
  | cons x xs ih =>
    intro h
    rw [List.sorted_cons] at h
    obtain ⟨hx, hxs⟩ := h
    by_cases hlt : c.score < x.score
    · simp only [insDesc, if_pos hlt]
      rw [List.sorted_cons]
      constructor
      · intro b hb
        rw [mem_insDesc] at hb
        cases hb with
        | inl hbc => subst hbc; omega
        | inr hbx => exact hx b hbx
      · exact ih hxs
    · simp only [insDesc, if_neg hlt]
      rw [List.sorted_cons]
      constructor
      · intro b hb
        rw [List.mem_cons] at hb
        cases hb with
        | inl hbx => subst hbx; omega
        | inr hbxs => have := hx b hbxs; omega
      · exact List.sorted_cons.mpr ⟨hx, hxs⟩

theorem sortDesc_sorted :
    ∀ l, List.Sorted (fun a b => b.score ≤ a.score) (sortDesc l) := by
  intro l
  induction l with
  | nil => simp [sortDesc]
  | cons x xs ih => exact insDesc_sorted x (sortDesc xs) ih

theorem insDesc_filter (c : Candidate) (s : Nat) :
    ∀ l, (insDesc c l).filter (fun x => decide (x.score = s)) =
      if c.score = s then c :: l.filter (fun x => decide (x.score = s))
      else l.filter (fun x => decide (x.score = s)) := by
  intro l
  induction l with
  | nil => by_cases hc : c.score = s <;> simp [insDesc, hc]
  | cons x xs ih =>
    by_cases hlt : c.score < x.score
    · simp only [insDesc, if_pos hlt, List.filter_cons]
      by_cases hc : c.score = s
      · have hx : ¬ (x.score = s) := by omega
        simp [hx, hc, ih, List.filter_cons]
      · simp [hc, ih, List.filter_cons]
    · simp only [insDesc, if_neg hlt, List.filter_cons]
      by_cases hc : c.score = s <;> simp [hc]

theorem sortDesc_filter (s : Nat) :
    ∀ l, (sortDesc l).filter (fun x => decide (x.score = s)) =
      l.filter (fun x => decide (x.score = s)) := by
  intro l
  induction l with
  | nil => rfl
  | cons x xs ih =>
    simp only [sortDesc, insDesc_filter, ih]
    by_cases hx : x.score = s <;> simp [hx, List.filter_cons]

/-- C9: the detection result is sorted by descending score, and for
every score value `s` the result's entries of score `s` are exactly
the scored candidate pool's entries of score `s` that meet the
threshold, in document order — so the output is precisely the
candidates with `score >= minScore`, descending, ties kept in original
document order (stable sort). -/
theorem smartElementDetection_sorted_stable (p : Page) (ms : Nat)
    (inc ca : Bool) :
    List.Sorted (fun a b => b.score ≤ a.score)
      (smartElementDetection p ms inc ca) ∧
    ∀ s, (smartElementDetection p ms inc ca).filter
        (fun c => decide (c.score = s)) =
      (scoredCandidates p inc ca).filter
        (fun c => decide (c.score = s) && decide (ms ≤ c.score)) := by
  constructor
  · exact sortDesc_sorted _
  · intro s
    unfold smartElementDetection
    rw [sortDesc_filter, List.filter_filter]
